import Mathlib

/-!
# Verification of the momentGW periodic moment-construction core

A shallow embedding of the moment-constrained GW engine of the `momentGW`
repository (files `momentGW/pbc/tda.py`, `momentGW/pbc/ints.py`,
`momentGW/qsgw.py`), together with theorems settling the specification
claims about it.

Conventions used throughout:

* Matrices are total functions `ℕ → ℕ → α`; every contraction carries its
  explicit summation bound, mirroring the numpy array shapes of the source.
* The scalar type `α` is an arbitrary `Field` with a `StarRing` structure
  (star plays the role of complex conjugation); all statements are about
  exact arithmetic, as the spec's scenarios demand ("in exact arithmetic",
  "to machine precision").
* Python exceptions are modelled by `Except MGWError`; the spec's error
  taxonomy (§7) names the raise sites: `NotImplementedError("Low dimensional
  integrals")` is `UnsupportedIntegralError`, the `ValueError` for a
  non-Hermitian self-energy moment is `InvariantViolationError`.
* MPI collectives (`mpi_helper.allreduce`/`bcast`, `loop(..., mpi=True)`)
  are modelled with single-process semantics (the identity collective), as
  the spec's design note §9 prescribes for testability.
-/

set_option maxHeartbeats 1600000
set_option linter.unusedSectionVars false

namespace MomentGW

/-- Matrices as total functions; dimensions are carried by the contractions. -/
abbrev Mat (α : Type) : Type := ℕ → ℕ → α

/-- Conjugate transpose `M.T.conj()` of a matrix. -/
def ctrans {α : Type} [Star α] (M : Mat α) : Mat α := fun i j => star (M j i)

/-- Elementwise conjugate `M.conj()` of a matrix. -/
def cconj {α : Type} [Star α] (M : Mat α) : Mat α := fun i j => star (M i j)

/-- Matrix product with explicit inner dimension `d` (`np.dot`). -/
def mmul {α : Type} [NonUnitalNonAssocSemiring α] (A B : Mat α) (d : ℕ) : Mat α :=
  fun i j => ∑ l ∈ Finset.range d, A i l * B l j

/-- Scalar multiple of a matrix. -/
def msmul {α : Type} [Mul α] (c : α) (M : Mat α) : Mat α := fun i j => c * M i j

section Mesh

/-!
## Brillouin-zone mesh

Modelled from the spec: the class `KPoints` (file `momentGW/pbc/kpts.py`) is
not part of the sources; §3 and §4.1 of the spec describe it as an ordered
fixed-size mesh of momentum points with a `wrap_around` operation mapping any
vector to its canonical representative, a `member` lookup returning the mesh
index of a vector, and `loop(depth)` enumerating momentum-conserving index
tuples.  §9 describes the mesh as "a finite group (the momentum mesh under
modular addition)".  We model a uniform mesh of `N` points on one reciprocal
axis (the three reciprocal dimensions factor componentwise): point `i` sits
at `i / N ∈ [0, 1)`, `wrap_around` is the fractional part, and `member`
recovers the index.  Indices are `ZMod N`, so that `loop(d)`, which for a
full uniform mesh is filtered by a vacuous momentum-conservation constraint,
enumerates all of `(ZMod N)^d`.
-/

variable (N : ℕ) [NeZero N]

/-- Modelled from the spec: the reciprocal-space position of mesh point `i`. -/
def kvec (i : ZMod N) : ℚ := (i.val : ℚ) / N

/-- Modelled from the spec: `wrap_around` maps a vector to its canonical
representative in `[0, 1)` (the fractional part). -/
def wrap_around (v : ℚ) : ℚ := Int.fract v

/-- Modelled from the spec: `member` returns the mesh index of a vector, or
`none` (the `LookupError` of §4.1) when the vector is not a mesh point. -/
def member (v : ℚ) : Option (ZMod N) :=
  let i : ℤ := ⌊v * N⌋
  if 0 ≤ i ∧ i < N ∧ kvec N ((i.toNat : ℕ) : ZMod N) = v then
    some ((i.toNat : ℕ) : ZMod N)
  else none

/-- Total variant of `member`: in every use below the lookup succeeds (see
`member_wrap_sub` and friends), so the default is never reached. -/
def memberD (v : ℚ) : ZMod N := (member N v).getD 0

theorem kvec_nonneg (i : ZMod N) : 0 ≤ kvec N i := by
  have : (0 : ℚ) ≤ (i.val : ℚ) := by positivity
  have hN : (0 : ℚ) < N := by
    exact_mod_cast Nat.pos_of_ne_zero (NeZero.ne N)
  exact div_nonneg this hN.le

theorem kvec_lt_one (i : ZMod N) : kvec N i < 1 := by
  have hN : (0 : ℚ) < N := by
    exact_mod_cast Nat.pos_of_ne_zero (NeZero.ne N)
  rw [kvec, div_lt_one hN]
  exact_mod_cast ZMod.val_lt i

theorem member_kvec (j : ZMod N) : member N (kvec N j) = some j := by
  have hN : (0 : ℚ) < N := by
    exact_mod_cast Nat.pos_of_ne_zero (NeZero.ne N)
  have hmul : kvec N j * N = (j.val : ℚ) := by
    rw [kvec]
    field_simp
  have hfloor : ⌊kvec N j * N⌋ = (j.val : ℤ) := by
    rw [hmul]
    exact_mod_cast Int.floor_natCast j.val
  rw [member]
  simp only [hfloor]
  have htn : ((j.val : ℤ).toNat : ℕ) = j.val := Int.toNat_natCast j.val
  have hcast : (((j.val : ℤ).toNat : ℕ) : ZMod N) = j := by
    rw [htn]; exact ZMod.natCast_rightInverse j
  rw [if_pos]
  · rw [hcast]
  · refine ⟨by positivity, ?_, by rw [hcast]⟩
    exact_mod_cast ZMod.val_lt j

/-- Key arithmetic fact: wrapping `z / N` lands on the mesh point indexed by
`z` reduced mod `N`. -/
theorem wrap_int_div (z : ℤ) : wrap_around ((z : ℚ) / N) = kvec N ((z : ℤ) : ZMod N) := by
  have hN : (0 : ℚ) < N := by
    exact_mod_cast Nat.pos_of_ne_zero (NeZero.ne N)
  have hNz : ((N : ℤ) : ℚ) ≠ 0 := by exact_mod_cast hN.ne'
  have hdecomp : (z : ℚ) / N = ((z % N : ℤ) : ℚ) / N + ((z / N : ℤ) : ℚ) := by
    have hz : (z : ℤ) = z % N + N * (z / N) := (Int.emod_add_ediv z N).symm
    have hzq : (z : ℚ) = ((z % N : ℤ) : ℚ) + (N : ℚ) * ((z / N : ℤ) : ℚ) := by
      exact_mod_cast congrArg (fun t : ℤ => (t : ℚ)) hz
    field_simp
    linarith [hzq]
  have hval : (((z : ZMod N).val : ℤ)) = z % N := ZMod.val_intCast z
  rw [wrap_around, hdecomp, Int.fract_add_int]
  have h0 : (0 : ℚ) ≤ ((z % N : ℤ) : ℚ) / N := by
    have : (0 : ℤ) ≤ z % N := Int.emod_nonneg z (by exact_mod_cast (NeZero.ne N))
    positivity
  have h1 : ((z % N : ℤ) : ℚ) / N < 1 := by
    rw [div_lt_one hN]
    have : z % N < N := Int.emod_lt_of_pos z (by exact_mod_cast Nat.pos_of_ne_zero (NeZero.ne N))
    exact_mod_cast this
  rw [Int.fract_eq_self.2 ⟨h0, h1⟩, kvec]
  congr 1
  exact_mod_cast hval.symm

theorem kvec_sub_eq (b q : ZMod N) :
    kvec N b - kvec N q = (((b.val : ℤ) - (q.val : ℤ) : ℤ) : ℚ) / N := by
  rw [kvec, kvec]
  push_cast
  ring

/-- `member(wrap_around(k_b - q))` resolves to the group difference of the
indices: the spec's §3 invariant that momentum conservation is enforced
through wrap-around before indexing. -/
theorem member_wrap_sub (b q : ZMod N) :
    member N (wrap_around (kvec N b - kvec N q)) = some (b - q) := by
  rw [kvec_sub_eq, wrap_int_div]
  have : (((b.val : ℤ) - (q.val : ℤ) : ℤ) : ZMod N) = b - q := by
    push_cast
    rw [ZMod.natCast_rightInverse b, ZMod.natCast_rightInverse q]
  rw [this, member_kvec]

theorem member_wrap_add (q i : ZMod N) :
    member N (wrap_around (kvec N q + kvec N i)) = some (q + i) := by
  have hsum : kvec N q + kvec N i = (((q.val : ℤ) + (i.val : ℤ) : ℤ) : ℚ) / N := by
    rw [kvec, kvec]; push_cast; ring
  rw [hsum, wrap_int_div]
  have : (((q.val : ℤ) + (i.val : ℤ) : ℤ) : ZMod N) = q + i := by
    push_cast
    rw [ZMod.natCast_rightInverse q, ZMod.natCast_rightInverse i]
  rw [this, member_kvec]

theorem member_wrap_neg (q : ZMod N) :
    member N (wrap_around (-kvec N q)) = some (-q) := by
  have hneg : -kvec N q = ((-(q.val : ℤ) : ℤ) : ℚ) / N := by
    rw [kvec]; push_cast; ring
  rw [hneg, wrap_int_div]
  have : ((-(q.val : ℤ) : ℤ) : ZMod N) = -q := by
    push_cast
    rw [ZMod.natCast_rightInverse q]
  rw [this, member_kvec]

theorem memberD_wrap_sub (b q : ZMod N) :
    memberD N (wrap_around (kvec N b - kvec N q)) = b - q := by
  rw [memberD, member_wrap_sub]; rfl

theorem memberD_wrap_add (q i : ZMod N) :
    memberD N (wrap_around (kvec N q + kvec N i)) = q + i := by
  rw [memberD, member_wrap_add]; rfl

theorem memberD_wrap_neg (q : ZMod N) :
    memberD N (wrap_around (-kvec N q)) = -q := by
  rw [memberD, member_wrap_neg]; rfl

/-- Spec §8: `wrap_around` is idempotent. -/
theorem wrap_around_idem (v : ℚ) : wrap_around (wrap_around v) = wrap_around v :=
  Int.fract_fract v

/-- Modelled from the spec: `kpts.loop(1)` enumerates every mesh index once
(`momentGW/pbc/kpts.py` is not among the sources; §4.1). -/
def kList (N : ℕ) : List (ZMod N) := List.map (fun i => ((i : ℕ) : ZMod N)) (List.range N)

theorem mem_kList (k : ZMod N) : k ∈ kList N := by
  rw [kList, List.mem_map]
  exact ⟨k.val, List.mem_range.2 (ZMod.val_lt k), ZMod.natCast_rightInverse k⟩

theorem kList_length : (kList N).length = N := by
  rw [kList, List.length_map, List.length_range]

theorem kList_nodup : (kList N).Nodup := by
  refine List.Nodup.map_on ?_ (List.nodup_range N)
  intro x hx y hy hxy
  have hx' : (x : ZMod N).val = x := ZMod.val_cast_of_lt (List.mem_range.1 hx)
  have hy' : (y : ZMod N).val = y := ZMod.val_cast_of_lt (List.mem_range.1 hy)
  rw [← hx', ← hy', hxy]

theorem kList_getElem (p : ℕ) (hp : p < (kList N).length) :
    (kList N)[p] = ((p : ℕ) : ZMod N) := by
  simp [kList]

end Mesh

/-- The error taxonomy of spec §7.  `unsupportedIntegral` models the
`NotImplementedError("Low dimensional integrals")` raise sites of
`momentGW/pbc/ints.py`; `invariantViolation` models the
`ValueError("moments_occ/vir not hermitian")` raises of
`momentGW/pbc/tda.py:200,202`; `notImplemented` models the unconditional
`NotImplementedError` raises for the unsupported exact-diagonalization
variant (`momentGW/qsgw.py:62`, `momentGW/pbc/tda.py:211`). -/
inductive MGWError : Type where
  | unsupportedIntegral : MGWError
  | invariantViolation : MGWError
  | notImplemented : MGWError
deriving DecidableEq

section TDA

/-!
## `momentGW/pbc/tda.py`: density-density and self-energy moments
-/

variable {α : Type} [Field α] [StarRing α]
variable (N : ℕ) [NeZero N]

/-- Data consumed by `TDA.build_dd_moments` (`momentGW/pbc/tda.py:83`):
per-momentum-point occupied/virtual counts of the w-basis, the
post-compression auxiliary dimension per transfer, the compressed `Lia`/`Lai`
tensor families (each block a matrix auxiliary × flattened occ·vir), and the
w-basis orbital energies split by occupancy mask (`mo_energy_w[k][mo_occ_w[k]
> 0]` and `mo_energy_w[k][mo_occ_w[k] == 0]`; pyscf orders occupied orbitals
first). -/
structure DDData (N : ℕ) (α : Type) where
  noccW : ZMod N → ℕ
  nvirW : ZMod N → ℕ
  nauxQ : ZMod N → ℕ
  Lia : ZMod N → ZMod N → Mat α
  Lai : ZMod N → ZMod N → Mat α
  eOccW : ZMod N → ℕ → α
  eVirW : ZMod N → ℕ → α

/-- `TDA.build_dd_moments` (`momentGW/pbc/tda.py:83-129`).  The result at
`(order, q, kb)` is the entry `moments[q, kb, order]`.  The zeroth moment
accumulates `Lia[kj, kb] / nkpts` over the momentum-conserving pair loop; a
higher moment adds the energy-denominator term (previous moment times the
ravelled outer-difference `d`) and, over the triple loop, the coupling term
`moments[q, ka, n-1] @ Lia[ki, ka].T.conj() @ Lai[kj, kb].conj() * 2 / nkpts`
with `ki`, `kj` resolved through `member ∘ wrap_around` exactly as in the
source. -/
def build_dd_moments (D : DDData N α) : ℕ → ZMod N → ZMod N → Mat α
  | 0 => fun q kb =>
      msmul ((N : α))⁻¹ (D.Lia (memberD N (wrap_around (kvec N kb - kvec N q))) kb)
  | n + 1 => fun q kb =>
      (fun L c =>
        build_dd_moments D n q kb L c *
          (D.eVirW kb (c % D.nvirW kb) -
            D.eOccW (memberD N (wrap_around (kvec N kb - kvec N q))) (c / D.nvirW kb)))
      + ∑ ka : ZMod N,
          msmul (2 / (N : α))
            (mmul
              (mmul (build_dd_moments D n q ka)
                (ctrans (D.Lia (memberD N (wrap_around (kvec N ka - kvec N q))) ka))
                (D.noccW (memberD N (wrap_around (kvec N ka - kvec N q))) * D.nvirW ka))
              (cconj (D.Lai (memberD N (wrap_around (kvec N kb - kvec N q))) kb))
              (D.nauxQ q))

/-- **C2.** The density-density response moment builder computes, for every
momentum-conserving pair `(q, kb)`, the order-0 moment as the `Lia` block at
the point related to `kb` by `q` (the group difference `kb - q`) divided by
the number of mesh points; and each order `n+1` moment as the sum of (i) the
order-`n` moment multiplied elementwise by the outer difference of virtual
(at `kb`) and occupied (at `kb - q`) w-basis orbital energies, and (ii) over
every momentum-conserving triple `(q, ka, kb)`, the order-`n` moment at
`(q, ka)` contracted against the conjugate transpose of the `Lia` block at
`(ka - q, ka)` and the conjugate of the `Lai` block at `(kb - q, kb)`, scaled
by `2 / N_k`. -/
theorem build_dd_moments_spec (D : DDData N α) (q kb : ZMod N) (n : ℕ) :
    build_dd_moments N D 0 q kb = msmul ((N : α))⁻¹ (D.Lia (kb - q) kb) ∧
    build_dd_moments N D (n + 1) q kb =
      (fun L c =>
        build_dd_moments N D n q kb L c *
          (D.eVirW kb (c % D.nvirW kb) - D.eOccW (kb - q) (c / D.nvirW kb)))
      + ∑ ka : ZMod N,
          msmul (2 / (N : α))
            (mmul
              (mmul (build_dd_moments N D n q ka)
                (ctrans (D.Lia (ka - q) ka))
                (D.noccW (ka - q) * D.nvirW ka))
              (cconj (D.Lai (kb - q) kb))
              (D.nauxQ q)) := by
  constructor
  · simp only [build_dd_moments, memberD_wrap_sub]
  · conv_lhs => rw [build_dd_moments]
    simp only [memberD_wrap_sub]

/-- Concrete data for the `C2` witness: a single mesh point with unit
blocks. -/
def ddWitnessData : DDData 1 ℚ :=
  DDData.mk (fun _ => 1) (fun _ => 1) (fun _ => 1) (fun _ _ => fun _ _ => 1)
    (fun _ _ => fun _ _ => 1) (fun _ _ => 0) (fun _ _ => 1)

/-- Witness for `build_dd_moments_spec` at a concrete instance. -/
theorem build_dd_moments_spec_witness :
    build_dd_moments 1 ddWitnessData 0 0 0 =
      msmul (((1 : ℕ) : ℚ))⁻¹ (ddWitnessData.Lia ((0 : ZMod 1) - 0) 0) ∧
    build_dd_moments 1 ddWitnessData (0 + 1) 0 0 =
      (fun L c =>
        build_dd_moments 1 ddWitnessData 0 0 0 L c *
          (ddWitnessData.eVirW 0 (c % ddWitnessData.nvirW 0) -
            ddWitnessData.eOccW ((0 : ZMod 1) - 0) (c / ddWitnessData.nvirW 0)))
      + ∑ ka : ZMod 1,
          msmul (2 / ((1 : ℕ) : ℚ))
            (mmul
              (mmul (build_dd_moments 1 ddWitnessData 0 0 ka)
                (ctrans (ddWitnessData.Lia (ka - 0) ka))
                (ddWitnessData.noccW (ka - 0) * ddWitnessData.nvirW ka))
              (cconj (ddWitnessData.Lai ((0 : ZMod 1) - 0) 0))
              (ddWitnessData.nauxQ 0)) :=
  build_dd_moments_spec 1 ddWitnessData 0 0 0

theorem msmul_zero_left (M : Mat α) : msmul (0 : α) M = 0 := by
  funext i j
  simp [msmul]

/-- Data consumed by the convolution stage of `TDA.build_se_moments`
(`momentGW/pbc/tda.py:172-192`): the per-pole per-order tensor `eta[kp, q]`
built in lines 150-169 (indexed by pole `x` and order `t`), the g-basis
orbital count and occupancy mask per momentum point (`mo_occ_g[k] > 0` marks
poles below the chemical potential), and the g-basis orbital energies. -/
structure SEData (N : ℕ) (α : Type) where
  nmomMax : ℕ
  nmoG : ZMod N → ℕ
  occG : ZMod N → ℕ → Bool
  eG : ZMod N → ℕ → α
  eta : ZMod N → ZMod N → ℕ → ℕ → Mat α

/-- The occupied (hole) self-energy moments `moments_occ[kp, n]` of
`TDA.build_se_moments` (`momentGW/pbc/tda.py:176-186`): over the pair loop,
`kx = member(wrap_around(kptp - qpt))`, and the einsum
`"t,kt,ktpq->pq"(fh, eo, eta[kp,q][occ])` with `fh[t] = binom(n,t)·(-1)^t`
and `eo[x,t] = E_x^(n-t)`.  scipy's `binom(n, t)` vanishes at integer
`t > n ≥ 0`, killing the paired (float) power `E^(n-t)` in exact arithmetic,
so the weight is embedded as `Nat.choose` (zero there) with a
natural-subtraction exponent. -/
def build_se_moments_occ (S : SEData N α) (kp : ZMod N) (n : ℕ) : Mat α :=
  ∑ q : ZMod N,
    ∑ x ∈ (Finset.range (S.nmoG (memberD N (wrap_around (kvec N kp - kvec N q))))).filter
        (fun x => S.occG (memberD N (wrap_around (kvec N kp - kvec N q))) x),
      ∑ t ∈ Finset.range (S.nmomMax + 1),
        msmul (((n.choose t : ℕ) : α) * (-1) ^ t *
            S.eG (memberD N (wrap_around (kvec N kp - kvec N q))) x ^ (n - t))
          (S.eta kp q x t)

/-- The virtual (particle) self-energy moments `moments_vir[kp, n]` of
`TDA.build_se_moments` (`momentGW/pbc/tda.py:188-192`): as
`build_se_moments_occ` but over the poles above the chemical potential
(`mo_occ_g == 0`) with the unsigned binomial weight `fp[t] = binom(n,t)`. -/
def build_se_moments_vir (S : SEData N α) (kp : ZMod N) (n : ℕ) : Mat α :=
  ∑ q : ZMod N,
    ∑ x ∈ (Finset.range (S.nmoG (memberD N (wrap_around (kvec N kp - kvec N q))))).filter
        (fun x => S.occG (memberD N (wrap_around (kvec N kp - kvec N q))) x = false),
      ∑ t ∈ Finset.range (S.nmomMax + 1),
        msmul (((n.choose t : ℕ) : α) *
            S.eG (memberD N (wrap_around (kvec N kp - kvec N q))) x ^ (n - t))
          (S.eta kp q x t)

/-- **C3.** For each requested moment order `n ≤ nmom_max`, the self-energy
moment builder combines the per-pole tensors with a binomial-coefficient
convolution: the occupied contribution weights each pole below the chemical
potential (at `kx = kp - q`) by `binom(n,t) · (-1)^t · E_pole^(n-t)` summed
over `t` from `0` to `n`, and the virtual contribution weights each pole
above the chemical potential by the unsigned `binom(n,t) · E_pole^(n-t)`. -/
theorem build_se_moments_binomial_convolution (S : SEData N α) (kp : ZMod N)
    (n : ℕ) (h : n ≤ S.nmomMax) :
    build_se_moments_occ N S kp n =
      (∑ q : ZMod N,
        ∑ x ∈ (Finset.range (S.nmoG (kp - q))).filter (fun x => S.occG (kp - q) x),
          ∑ t ∈ Finset.range (n + 1),
            msmul (((n.choose t : ℕ) : α) * (-1) ^ t * S.eG (kp - q) x ^ (n - t))
              (S.eta kp q x t)) ∧
    build_se_moments_vir N S kp n =
      (∑ q : ZMod N,
        ∑ x ∈ (Finset.range (S.nmoG (kp - q))).filter (fun x => S.occG (kp - q) x = false),
          ∑ t ∈ Finset.range (n + 1),
            msmul (((n.choose t : ℕ) : α) * S.eG (kp - q) x ^ (n - t))
              (S.eta kp q x t)) := by
  have hsub : Finset.range (n + 1) ⊆ Finset.range (S.nmomMax + 1) :=
    Finset.range_subset.2 (by omega)
  constructor
  · rw [build_se_moments_occ]
    simp only [memberD_wrap_sub]
    refine Finset.sum_congr rfl fun q _ => Finset.sum_congr rfl fun x _ => ?_
    refine (Finset.sum_subset hsub fun t _ ht => ?_).symm
    have hnt : n < t := by
      by_contra hle
      push_neg at hle
      exact ht (Finset.mem_range.2 (by omega))
    rw [Nat.choose_eq_zero_of_lt hnt]
    simpa using msmul_zero_left (S.eta kp q x t)
  · rw [build_se_moments_vir]
    simp only [memberD_wrap_sub]
    refine Finset.sum_congr rfl fun q _ => Finset.sum_congr rfl fun x _ => ?_
    refine (Finset.sum_subset hsub fun t _ ht => ?_).symm
    have hnt : n < t := by
      by_contra hle
      push_neg at hle
      exact ht (Finset.mem_range.2 (by omega))
    rw [Nat.choose_eq_zero_of_lt hnt]
    simpa using msmul_zero_left (S.eta kp q x t)

/-- Concrete data for the `C3` witness: a single mesh point, one g-basis
orbital, unit energies and per-pole tensors. -/
def seWitnessData : SEData 1 ℚ :=
  SEData.mk 1 (fun _ => 1) (fun _ _ => true) (fun _ _ => (1 : ℚ))
    (fun _ _ _ _ => fun _ _ => (1 : ℚ))

/-- Witness for `build_se_moments_binomial_convolution` at a concrete
instance. -/
theorem build_se_moments_binomial_convolution_witness :
    (1 ≤ seWitnessData.nmomMax) ∧
    (build_se_moments_occ 1 seWitnessData 0 1 =
      (∑ q : ZMod 1,
        ∑ x ∈ (Finset.range (seWitnessData.nmoG (0 - q))).filter
            (fun x => seWitnessData.occG (0 - q) x),
          ∑ t ∈ Finset.range 2,
            msmul (((Nat.choose 1 t : ℕ) : ℚ) * (-1) ^ t *
                seWitnessData.eG (0 - q) x ^ (1 - t))
              (seWitnessData.eta 0 q x t)) ∧
    build_se_moments_vir 1 seWitnessData 0 1 =
      (∑ q : ZMod 1,
        ∑ x ∈ (Finset.range (seWitnessData.nmoG (0 - q))).filter
            (fun x => seWitnessData.occG (0 - q) x = false),
          ∑ t ∈ Finset.range 2,
            msmul (((Nat.choose 1 t : ℕ) : ℚ) * seWitnessData.eG (0 - q) x ^ (1 - t))
              (seWitnessData.eta 0 q x t))) :=
  ⟨by decide, build_se_moments_binomial_convolution 1 seWitnessData 0 1 (by decide)⟩

/-- Symmetrization `0.5 * (M + M.T.conj())` (`momentGW/pbc/tda.py:203-204`). -/
def symmetrize (M : Mat α) : Mat α := msmul ((2 : α))⁻¹ (M + ctrans M)

theorem ctrans_symmetrize (M : Mat α) : ctrans (symmetrize M) = symmetrize M := by
  funext i j
  show star ((2 : α)⁻¹ * (M j i + star (M i j))) = (2 : α)⁻¹ * (M i j + star (M j i))
  rw [star_mul', star_inv₀, star_ofNat, star_add, star_star, add_comm]

/-- Point update of a doubly-indexed array of matrices. -/
def updSlot (f : ZMod N → ℕ → Mat α) (k : ZMod N) (n : ℕ) (v : Mat α) :
    ZMod N → ℕ → Mat α :=
  fun k' n' => if k' = k ∧ n' = n then v else f k' n'

/-- One iteration of the Hermiticity-check loop of `TDA.build_se_moments`
(`momentGW/pbc/tda.py:196-204`): at momentum point `k` and order `n`, if
`moments_occ[k, n]` is not close to its conjugate transpose raise
(`ValueError("moments_occ not hermitian")`, the spec's
`InvariantViolationError`), likewise for `moments_vir[k, n]`, then overwrite
both slots with their symmetrizations.  The closeness test `np.allclose` is
the external numpy tolerance predicate, taken as a parameter `close`. -/
def herm_check_step (close : Mat α → Mat α → Bool)
    (st : (ZMod N → ℕ → Mat α) × (ZMod N → ℕ → Mat α)) (kn : ZMod N × ℕ) :
    Except MGWError ((ZMod N → ℕ → Mat α) × (ZMod N → ℕ → Mat α)) :=
  if ¬ close (st.1 kn.1 kn.2) (ctrans (st.1 kn.1 kn.2)) then .error .invariantViolation
  else if ¬ close (st.2 kn.1 kn.2) (ctrans (st.2 kn.1 kn.2)) then .error .invariantViolation
  else .ok
    (updSlot N st.1 kn.1 kn.2 (symmetrize (st.1 kn.1 kn.2)),
     updSlot N st.2 kn.1 kn.2 (symmetrize (st.2 kn.1 kn.2)))

/-- The `(k, n)` pairs visited by the check loop, in source order
(`for k, kpt in enumerate(self.kpts): for n in range(self.nmom_max + 1)`). -/
def knPairs (N : ℕ) (nmom : ℕ) : List (ZMod N × ℕ) :=
  (kList N).flatMap (fun k => (List.range (nmom + 1)).map (fun n => (k, n)))

/-- The Hermiticity check and symmetrization pass of `TDA.build_se_moments`
(`momentGW/pbc/tda.py:194-204`) as a monadic fold over the visited slots. -/
def herm_check_symmetrize (close : Mat α → Mat α → Bool) (nmom : ℕ)
    (mo mv : ZMod N → ℕ → Mat α) :
    Except MGWError ((ZMod N → ℕ → Mat α) × (ZMod N → ℕ → Mat α)) :=
  (knPairs N nmom).foldlM (herm_check_step N close) (mo, mv)

theorem mem_knPairs (nmom : ℕ) (k : ZMod N) (n : ℕ) :
    (k, n) ∈ knPairs N nmom ↔ n ≤ nmom := by
  rw [knPairs, List.mem_flatMap]
  constructor
  · rintro ⟨k', _, hmem⟩
    rcases List.mem_map.1 hmem with ⟨n', hn', heq⟩
    have hnn : n' = n := congrArg Prod.snd heq
    subst hnn
    exact Nat.lt_succ_iff.1 (List.mem_range.1 hn')
  · intro hn
    exact ⟨k, mem_kList N k, List.mem_map.2 ⟨n, List.mem_range.2 (by omega), rfl⟩⟩

theorem knPairs_nodup (nmom : ℕ) : (knPairs N nmom).Nodup := by
  rw [knPairs, List.nodup_flatMap]
  refine ⟨fun k _ => ?_, ?_⟩
  · exact (List.nodup_range _).map (fun a b h => by simpa using congrArg Prod.snd h)
  · refine (kList_nodup N).pairwise_of_forall_ne fun a ha b hb hab => ?_
    intro x hxa hxb
    rcases List.mem_map.1 hxa with ⟨na, _, rfl⟩
    rcases List.mem_map.1 hxb with ⟨nb, _, heq⟩
    exact hab (by simpa using (congrArg Prod.fst heq).symm)

theorem herm_fold_ok (close : Mat α → Mat α → Bool) (mo mv : ZMod N → ℕ → Mat α)
    (l : List (ZMod N × ℕ)) (hnd : l.Nodup)
    (hpass : ∀ kn ∈ l, close (mo kn.1 kn.2) (ctrans (mo kn.1 kn.2)) = true ∧
        close (mv kn.1 kn.2) (ctrans (mv kn.1 kn.2)) = true) :
    ∀ st : (ZMod N → ℕ → Mat α) × (ZMod N → ℕ → Mat α),
      (∀ kn ∈ l, st.1 kn.1 kn.2 = mo kn.1 kn.2 ∧ st.2 kn.1 kn.2 = mv kn.1 kn.2) →
      ∃ F G, l.foldlM (herm_check_step N close) st = .ok (F, G) ∧
        (∀ kn ∈ l, F kn.1 kn.2 = symmetrize (mo kn.1 kn.2) ∧
          G kn.1 kn.2 = symmetrize (mv kn.1 kn.2)) ∧
        (∀ k n, (k, n) ∉ l → F k n = st.1 k n ∧ G k n = st.2 k n) := by
  induction l with
  | nil =>
      intro st _
      exact ⟨st.1, st.2, rfl, by simp, fun k n _ => ⟨rfl, rfl⟩⟩
  | cons hd tl ih =>
      intro st hst
      obtain ⟨hmo, hmv⟩ := hst hd (List.mem_cons_self hd tl)
      obtain ⟨hc1, hc2⟩ := hpass hd (List.mem_cons_self hd tl)
      have hstep : herm_check_step N close st hd = .ok
          (updSlot N st.1 hd.1 hd.2 (symmetrize (st.1 hd.1 hd.2)),
           updSlot N st.2 hd.1 hd.2 (symmetrize (st.2 hd.1 hd.2))) := by
        rw [herm_check_step, if_neg, if_neg]
        · simp only [hmv, not_not]
          exact hc2
        · simp only [hmo, not_not]
          exact hc1
      have hhdtl : hd ∉ tl := (List.nodup_cons.1 hnd).1
      obtain ⟨F, G, hfold, hdone, hrest⟩ :=
        ih (List.nodup_cons.1 hnd).2 (fun kn hkn => hpass kn (List.mem_cons_of_mem hd hkn))
          (updSlot N st.1 hd.1 hd.2 (symmetrize (st.1 hd.1 hd.2)),
           updSlot N st.2 hd.1 hd.2 (symmetrize (st.2 hd.1 hd.2)))
          (fun kn hkn => by
            have hne : kn ≠ hd := fun h => hhdtl (h ▸ hkn)
            have hcond : ¬(kn.1 = hd.1 ∧ kn.2 = hd.2) := fun ⟨h1, h2⟩ =>
              hne (Prod.ext h1 h2)
            constructor
            · show updSlot N st.1 hd.1 hd.2 _ kn.1 kn.2 = _
              rw [updSlot, if_neg hcond]
              exact (hst kn (List.mem_cons_of_mem hd hkn)).1
            · show updSlot N st.2 hd.1 hd.2 _ kn.1 kn.2 = _
              rw [updSlot, if_neg hcond]
              exact (hst kn (List.mem_cons_of_mem hd hkn)).2)
      refine ⟨F, G, ?_, ?_, ?_⟩
      · rw [List.foldlM_cons, hstep]
        exact hfold
      · intro kn hkn
        rcases List.mem_cons.1 hkn with rfl | hkn'
        · obtain ⟨hF, hG⟩ := hrest kn.1 kn.2 (by simpa using hhdtl)
          rw [hF, hG]
          constructor
          · show updSlot N st.1 kn.1 kn.2 _ kn.1 kn.2 = _
            rw [updSlot, if_pos ⟨rfl, rfl⟩, hmo]
          · show updSlot N st.2 kn.1 kn.2 _ kn.1 kn.2 = _
            rw [updSlot, if_pos ⟨rfl, rfl⟩, hmv]
        · exact hdone kn hkn'
      · intro k n hkn
        have hntl : (k, n) ∉ tl := fun h => hkn (List.mem_cons_of_mem hd h)
        have hne : (k, n) ≠ hd := fun h => hkn (h ▸ List.mem_cons_self hd tl)
        have hcond : ¬(k = hd.1 ∧ n = hd.2) := fun ⟨h1, h2⟩ =>
          hne (Prod.ext h1 h2)
        obtain ⟨hF, hG⟩ := hrest k n hntl
        rw [hF, hG]
        constructor
        · show updSlot N st.1 hd.1 hd.2 _ k n = st.1 k n
          rw [updSlot, if_neg hcond]
        · show updSlot N st.2 hd.1 hd.2 _ k n = st.2 k n
          rw [updSlot, if_neg hcond]

theorem herm_fold_fail (close : Mat α → Mat α → Bool) (mo mv : ZMod N → ℕ → Mat α)
    (l : List (ZMod N × ℕ)) (hnd : l.Nodup) :
    ∀ st : (ZMod N → ℕ → Mat α) × (ZMod N → ℕ → Mat α),
      (∀ kn ∈ l, st.1 kn.1 kn.2 = mo kn.1 kn.2 ∧ st.2 kn.1 kn.2 = mv kn.1 kn.2) →
      (∃ kn ∈ l, ¬(close (mo kn.1 kn.2) (ctrans (mo kn.1 kn.2)) = true ∧
          close (mv kn.1 kn.2) (ctrans (mv kn.1 kn.2)) = true)) →
      l.foldlM (herm_check_step N close) st = .error .invariantViolation := by
  induction l with
  | nil => rintro st _ ⟨kn, hkn, _⟩; exact absurd hkn (List.not_mem_nil kn)
  | cons hd tl ih =>
      intro st hst ⟨kn, hkn, hfail⟩
      obtain ⟨hmo, hmv⟩ := hst hd (List.mem_cons_self hd tl)
      by_cases hpass : close (mo hd.1 hd.2) (ctrans (mo hd.1 hd.2)) = true ∧
          close (mv hd.1 hd.2) (ctrans (mv hd.1 hd.2)) = true
      · have hstep : herm_check_step N close st hd = .ok
            (updSlot N st.1 hd.1 hd.2 (symmetrize (st.1 hd.1 hd.2)),
             updSlot N st.2 hd.1 hd.2 (symmetrize (st.2 hd.1 hd.2))) := by
          rw [herm_check_step, if_neg, if_neg]
          · simp only [hmv, not_not]
            exact hpass.2
          · simp only [hmo, not_not]
            exact hpass.1
        have hkn' : kn ∈ tl := by
          rcases List.mem_cons.1 hkn with rfl | h
          · exact absurd hpass hfail
          · exact h
        rw [List.foldlM_cons, hstep]
        refine ih (List.nodup_cons.1 hnd).2 _ (fun kn' hkn'' => ?_) ⟨kn, hkn', hfail⟩
        have hne : kn' ≠ hd := fun h => (List.nodup_cons.1 hnd).1 (h ▸ hkn'')
        have hcond : ¬(kn'.1 = hd.1 ∧ kn'.2 = hd.2) := fun ⟨h1, h2⟩ =>
          hne (Prod.ext h1 h2)
        constructor
        · show updSlot N st.1 hd.1 hd.2 _ kn'.1 kn'.2 = _
          rw [updSlot, if_neg hcond]
          exact (hst kn' (List.mem_cons_of_mem hd hkn'')).1
        · show updSlot N st.2 hd.1 hd.2 _ kn'.1 kn'.2 = _
          rw [updSlot, if_neg hcond]
          exact (hst kn' (List.mem_cons_of_mem hd hkn'')).2
      · have hstep : herm_check_step N close st hd = .error .invariantViolation := by
          rw [herm_check_step]
          by_cases h1 : close (mo hd.1 hd.2) (ctrans (mo hd.1 hd.2)) = true
          · have h2 : ¬ close (mv hd.1 hd.2) (ctrans (mv hd.1 hd.2)) = true := by
              intro h2; exact hpass ⟨h1, h2⟩
            rw [if_neg, if_pos]
            · simp only [hmv]
              simpa using h2
            · simp only [hmo, not_not]
              exact h1
          · rw [if_pos]
            simp only [hmo]
            simpa using h1
        rw [List.foldlM_cons, hstep]
        rfl

/-- **C1.** For every momentum point `k` and every order `0..nmom_max`, the
self-energy moment builder checks that the occupied and virtual moment
matrices are numerically Hermitian, fails with `InvariantViolationError`
(the `ValueError` of `momentGW/pbc/tda.py:200,202`) when some moment fails
the closeness test against its conjugate transpose, and when every check
passes returns each moment symmetrized as `0.5 × (M + M†)`, so every
returned moment equals its own conjugate transpose. -/
theorem herm_check_symmetrize_spec (close : Mat α → Mat α → Bool) (nmom : ℕ)
    (mo mv : ZMod N → ℕ → Mat α) :
    ((∃ k : ZMod N, ∃ n ≤ nmom,
        ¬(close (mo k n) (ctrans (mo k n)) = true ∧
          close (mv k n) (ctrans (mv k n)) = true)) →
      herm_check_symmetrize N close nmom mo mv = .error .invariantViolation) ∧
    ((∀ k : ZMod N, ∀ n ≤ nmom,
        close (mo k n) (ctrans (mo k n)) = true ∧
        close (mv k n) (ctrans (mv k n)) = true) →
      ∃ F G, herm_check_symmetrize N close nmom mo mv = .ok (F, G) ∧
        ∀ k : ZMod N, ∀ n ≤ nmom,
          F k n = symmetrize (mo k n) ∧ G k n = symmetrize (mv k n) ∧
          ctrans (F k n) = F k n ∧ ctrans (G k n) = G k n) := by
  constructor
  · rintro ⟨k, n, hn, hfail⟩
    exact herm_fold_fail N close mo mv (knPairs N nmom) (knPairs_nodup N nmom)
      (mo, mv) (fun _ _ => ⟨rfl, rfl⟩)
      ⟨(k, n), (mem_knPairs N nmom k n).2 hn, hfail⟩
  · intro hpass
    obtain ⟨F, G, hfold, hdone, _⟩ :=
      herm_fold_ok N close mo mv (knPairs N nmom) (knPairs_nodup N nmom)
        (fun kn hkn => hpass kn.1 kn.2 ((mem_knPairs N nmom kn.1 kn.2).1 hkn))
        (mo, mv) (fun _ _ => ⟨rfl, rfl⟩)
    refine ⟨F, G, hfold, fun k n hn => ?_⟩
    obtain ⟨hF, hG⟩ := hdone (k, n) ((mem_knPairs N nmom k n).2 hn)
    exact ⟨hF, hG, by rw [hF]; exact ctrans_symmetrize (mo k n),
      by rw [hG]; exact ctrans_symmetrize (mv k n)⟩

/-- Witness for `herm_check_symmetrize_spec` at a concrete instance (the
success branch, with an always-accepting closeness test). -/
theorem herm_check_symmetrize_spec_witness :
    (∀ _k : ZMod 1, ∀ _n ≤ 0,
        ((fun _ _ => true) : Mat ℚ → Mat ℚ → Bool) ((fun _ _ => (1 : ℚ)))
          (ctrans ((fun _ _ => (1 : ℚ)))) = true ∧
        ((fun _ _ => true) : Mat ℚ → Mat ℚ → Bool) ((fun _ _ => (1 : ℚ)))
          (ctrans ((fun _ _ => (1 : ℚ)))) = true) ∧
    (∃ F G, herm_check_symmetrize 1 (fun _ _ => true) 0
        (fun _ _ => fun _ _ => (1 : ℚ)) (fun _ _ => fun _ _ => (1 : ℚ)) = .ok (F, G) ∧
      ∀ k : ZMod 1, ∀ n ≤ 0,
        F k n = symmetrize (fun _ _ => (1 : ℚ)) ∧
        G k n = symmetrize (fun _ _ => (1 : ℚ)) ∧
        ctrans (F k n) = F k n ∧ ctrans (G k n) = G k n) :=
  ⟨fun _ _ _ => ⟨rfl, rfl⟩,
    (herm_check_symmetrize_spec 1 (fun _ _ => true) 0
      (fun _ _ => fun _ _ => (1 : ℚ)) (fun _ _ => fun _ _ => (1 : ℚ))).2
      (fun _ _ _ => ⟨rfl, rfl⟩)⟩

end TDA

section Chunks

/-!
## The density-fitting provider's streaming interface

`with_df.sr_loop((ki, kj), compact=False)` yields successive chunks of the
raw auxiliary × orbital × orbital block (spec §6): real and imaginary parts
(combined here into the scalar content, since offsets `b0, b1 = b1, b1 +
block.shape[0]` stack the chunks in order) and a sentinel `block[2] == -1`
flagging unsupported low-dimensional (non-3D-periodic) integrals.
-/

variable {α β : Type}

/-- One chunk of the provider stream: `rows` auxiliary rows, the complex
content `block[0] + block[1]*1.0j` reshaped to `(rows, nmo, nmo)` as `data`
(local row ↦ matrix), and the low-dimensionality sentinel. -/
structure Chunk (α : Type) where
  rows : ℕ
  lowdim : Bool
  data : ℕ → Mat α

/-- Total number of auxiliary rows in a stream (the final offset `b1`). -/
def totalRows (cs : List (Chunk α)) : ℕ := (cs.map Chunk.rows).sum

/-- Whether some chunk carries the low-dimensionality sentinel. -/
def hasLowDim (cs : List (Chunk α)) : Bool := cs.any Chunk.lowdim

/-- Row `L` of the stacked stream (chunk `c` occupies global rows
`b0 ≤ L < b1`); rows beyond the stream read as zero. -/
def stackGet [Zero α] : List (Chunk α) → ℕ → Mat α
  | [], _ => fun _ _ => 0
  | c :: cs, L => if L < c.rows then c.data L else stackGet cs (L - c.rows)

/-- The slice-assignment pattern `dst[b0:b1] = g(block)` into a
zero-initialized row-indexed array: row `b0 + l` receives `g` of chunk row
`l`; untouched rows keep `g` of the zero row (`g` is applied pointwise to
rows, so `dst` was initialized to `g 0 = 0` for the linear `g` used below). -/
def sliceAssign [Zero α] (g : Mat α → β) : List (Chunk α) → ℕ → β
  | [], _ => g (fun _ _ => 0)
  | c :: cs, L => if L < c.rows then g (c.data L) else sliceAssign g cs (L - c.rows)

theorem sliceAssign_eq_stackGet [Zero α] (g : Mat α → β) (cs : List (Chunk α)) (L : ℕ) :
    sliceAssign g cs L = g (stackGet cs L) := by
  induction cs generalizing L with
  | nil => rfl
  | cons c cs ih =>
      rw [sliceAssign, stackGet]
      by_cases h : L < c.rows
      · rw [if_pos h, if_pos h]
      · rw [if_neg h, if_neg h, ih]

/-- The accumulation pattern `acc += Σ_l f(b0 + l, block[l])` over the
stream (`dst += einsum(block, ...)` with blockwise offsets). -/
def rowSum [AddCommMonoid β] (f : ℕ → Mat α → β) : List (Chunk α) → β
  | [] => 0
  | c :: cs =>
      (∑ l ∈ Finset.range c.rows, f l (c.data l)) +
        rowSum (fun L d => f (L + c.rows) d) cs

theorem rowSum_eq_sum [Zero α] [AddCommMonoid β] (f : ℕ → Mat α → β)
    (cs : List (Chunk α)) :
    rowSum f cs = ∑ L ∈ Finset.range (totalRows cs), f L (stackGet cs L) := by
  induction cs generalizing f with
  | nil => rfl
  | cons c cs ih =>
      rw [rowSum, ih]
      have htot : totalRows (c :: cs) = c.rows + totalRows cs := by
        rw [totalRows, List.map_cons, List.sum_cons]; rfl
      rw [htot, Finset.sum_range_add]
      congr 1
      · refine Finset.sum_congr rfl fun l hl => ?_
        rw [stackGet, if_pos (Finset.mem_range.1 hl)]
      · refine Finset.sum_congr rfl fun l _ => ?_
        rw [stackGet, if_neg (by omega), Nat.add_comm c.rows l, Nat.add_sub_cancel]

end Chunks

section Transform

/-!
## `KIntegrals.transform` (`momentGW/pbc/ints.py:121-273`)

The imperative double loop `for q in self.kpts.loop(1): for ki in
self.kpts.loop(1, mpi=True): ...` is embedded literally, including the
rebinding `q = self.kpts.member(self.kpts.wrap_around(-self.kpts[q]))` at
line 235, which (when `do_Lia`) persists into the next `ki` iteration of the
inner loop.  `loop(1, mpi=True)` is taken with single-process semantics
(every rank sees all of `kList`).
-/

variable {α : Type} [Field α] [StarRing α]
variable (N : ℕ) [NeZero N]

/-- Data consumed by `KIntegrals.transform`: orbital counts, the molecular
orbital coefficients (`mo_coeff`, `mo_coeff_g`, `mo_coeff_w`), the provider
streams per ordered momentum-point pair, and the compression rotations after
the defaulting of lines 130-138 (`rot[q] = np.eye(naux_full)` where the
metric returned `None`). -/
structure TrData (N : ℕ) (α : Type) where
  nmo : ℕ
  nauxFull : ℕ
  noccW : ZMod N → ℕ
  nvirW : ZMod N → ℕ
  C : ZMod N → Mat α
  Cg : ZMod N → Mat α
  Cw : ZMod N → Mat α
  sr : ZMod N → ZMod N → List (Chunk α)
  rot : ZMod N → Mat α

/-- The full rotation `Lpq_k[b0:b1] = einsum("Lpq,pi,qj->Lij", block,
mo_coeff[ki].conj(), mo_coeff[kj])` (`ints.py:189-196`), assembled slicewise
over the stream. -/
def LpqVal (D : TrData N α) (ki kj : ZMod N) : ℕ → Mat α :=
  sliceAssign
    (fun M => fun i j =>
      ∑ p ∈ Finset.range D.nmo, ∑ r ∈ Finset.range D.nmo,
        M p r * star (D.C ki p i) * D.C kj r j)
    (D.sr ki kj)

/-- The compressed stream `block_comp = einsum("L...,LQ->Q...", block,
rot[q][b0:b1].conj())` (`ints.py:199`), accumulated over the chunks with
their global row offsets. -/
def compBlock (D : TrData N α) (q ki kj : ZMod N) : ℕ → Mat α :=
  fun Q => rowSum (fun L M => fun p r => M p r * star (D.rot q L Q)) (D.sr ki kj)

/-- `Lpx_k += einsum("Lpq,pi,qj->Lij", block_comp, mo_coeff[ki].conj(),
mo_coeff_g[kj])` (`ints.py:202-209`), summed over the stream (the chunkwise
accumulation commutes with the orbital contraction by linearity). -/
def LpxVal (D : TrData N α) (q ki kj : ZMod N) : ℕ → Mat α :=
  fun Q i j =>
    ∑ p ∈ Finset.range D.nmo, ∑ r ∈ Finset.range D.nmo,
      compBlock N D q ki kj Q p r * star (D.C ki p i) * D.Cg kj r j

/-- `Lia_k += einsum("Lpq,pi,qj->Lij", block_comp, occ(mo_coeff_w[ki]).conj(),
vir(mo_coeff_w[kj]))` reshaped to flattened occ·vir columns
(`ints.py:212-223`); column `c` decodes as occupied `c / nvir_w[kj]`, virtual
`c % nvir_w[kj]` (pyscf stores occupied columns first, so virtual column `a`
of `mo_coeff_w[kj]` is column `nocc_w[kj] + a`). -/
def LiaVal (D : TrData N α) (q ki kj : ZMod N) : Mat α :=
  fun Q c =>
    ∑ p ∈ Finset.range D.nmo, ∑ r ∈ Finset.range D.nmo,
      compBlock N D q ki kj Q p r * star (D.Cw ki p (c / D.nvirW kj)) *
        D.Cw kj r (D.noccW kj + c % D.nvirW kj)

/-- `Lai_k += einsum("Lpq,pi,qj->Lij", block_comp, vir(mo_coeff_w[kj]).conj(),
occ(mo_coeff_w[ki])).swapaxes(1, 2)` reshaped (`ints.py:250-261`): built from
the reversed provider pair `(kj, ki)` and the rotation at the inverted
transfer `qinv`. -/
def LaiVal (D : TrData N α) (qinv ki kj : ZMod N) : Mat α :=
  fun Q c =>
    ∑ p ∈ Finset.range D.nmo, ∑ r ∈ Finset.range D.nmo,
      compBlock N D qinv kj ki Q p r * star (D.Cw kj p (D.noccW kj + c % D.nvirW kj)) *
        D.Cw ki r (c / D.nvirW kj)

/-- The four tensor-family dictionaries (`Lpq`, `Lpx`, `Lia`, `Lai`) keyed by
ordered momentum-point pairs; `none` marks an absent key. -/
structure TrState (N : ℕ) (α : Type) where
  Lpq : ZMod N → ZMod N → Option (ℕ → Mat α)
  Lpx : ZMod N → ZMod N → Option (ℕ → Mat α)
  Lia : ZMod N → ZMod N → Option (Mat α)
  Lai : ZMod N → ZMod N → Option (Mat α)

/-- The empty dictionaries (`Lpq = {}`, ..., `ints.py:147-150`). -/
def TrState.empty : TrState N α :=
  ⟨fun _ _ => none, fun _ _ => none, fun _ _ => none, fun _ _ => none⟩

/-- Dictionary write `d[a, b] = v`. -/
def upd2 {γ : Type} (f : ZMod N → ZMod N → Option γ) (a b : ZMod N) (v : γ) :
    ZMod N → ZMod N → Option γ :=
  fun x y => if x = a ∧ y = b then some v else f x y

/-- The dictionary writes after the first block loop of one `ki` iteration
(`ints.py:225-230`), guarded by the three flags. -/
def writeFirst (D : TrData N α) (doLpq doLpx doLia : Bool) (q ki kj : ZMod N)
    (st : TrState N α) : TrState N α :=
  let st1 := if doLpq then { st with Lpq := upd2 N st.Lpq ki kj (LpqVal N D ki kj) } else st
  let st2 := if doLpx then { st1 with Lpx := upd2 N st1.Lpx ki kj (LpxVal N D q ki kj) } else st1
  if doLia then { st2 with Lia := upd2 N st2.Lia ki kj (LiaVal N D q ki kj) } else st2

/-- The inner `ki` loop of `KIntegrals.transform` (`ints.py:153-263`).  The
pair index is `kj = member(wrap_around(kpts[q] + kpts[ki]))`; a chunk with
the low-dimensionality sentinel raises (`NotImplementedError`, the spec's
`UnsupportedIntegralError`).  When `do_Lia`, line 235 rebinds `q` to
`member(wrap_around(-kpts[q]))` before the `Lai` pass, and — since `q` is the
outer loop's variable — the inverted value is carried into the next inner
iteration. -/
def trInner (D : TrData N α) (doLpq doLpx doLia : Bool) :
    ZMod N → List (ZMod N) → TrState N α → Except MGWError (TrState N α)
  | _, [], st => .ok st
  | q, ki :: rest, st =>
      let kj := memberD N (wrap_around (kvec N q + kvec N ki))
      if hasLowDim (D.sr ki kj) then .error .unsupportedIntegral
      else
        let st' := writeFirst N D doLpq doLpx doLia q ki kj st
        if doLia then
          let qinv := memberD N (wrap_around (-kvec N q))
          if hasLowDim (D.sr kj ki) then .error .unsupportedIntegral
          else
            trInner D doLpq doLpx doLia qinv rest
              { st' with Lai := upd2 N st'.Lai ki kj (LaiVal N D qinv ki kj) }
        else trInner D doLpq doLpx doLia q rest st'

/-- `KIntegrals.transform` (`ints.py:121-273`): early return when no family
is requested (line 141-142, the dictionaries stay empty), otherwise the outer
loop over momentum transfers. -/
def transform (D : TrData N α) (doLpq doLpx doLia : Bool) :
    Except MGWError (TrState N α) :=
  if ¬(doLpq = true ∨ doLpx = true ∨ doLia = true) then .ok (TrState.empty N)
  else
    (kList N).foldlM (fun st q => trInner N D doLpq doLpx doLia q (kList N) st)
      (TrState.empty N)

/-- The effective momentum transfer seen by the `p`-th inner iteration when
the inner loop started at `q`: the line-235 rebinding alternates it. -/
def altQ (q : ZMod N) (p : ℕ) : ZMod N := if p % 2 = 0 then q else -q

theorem altQ_zero (q : ZMod N) : altQ N q 0 = q := rfl

theorem altQ_succ (q : ZMod N) (p : ℕ) : altQ N q (p + 1) = altQ N (-q) p := by
  rcases Nat.even_or_odd p with hp | hp
  · have h0 : p % 2 = 0 := Nat.even_iff.1 hp
    have h1 : (p + 1) % 2 = 1 := by omega
    simp [altQ, h0, h1]
  · have h0 : p % 2 = 1 := Nat.odd_iff.1 hp
    have h1 : (p + 1) % 2 = 0 := by omega
    simp [altQ, h0, h1]

/-- Invariant of the transform loops: every present dictionary entry at key
`(a, b)` carries the value canonical for that key — the non-inverted transfer
`b - a` for `Lpq`/`Lpx`/`Lia` and the inverted transfer `-(b - a)` for
`Lai`. -/
def TrInv (D : TrData N α) (st : TrState N α) : Prop :=
  ∀ a b : ZMod N,
    (st.Lpq a b = none ∨ st.Lpq a b = some (LpqVal N D a b)) ∧
    (st.Lpx a b = none ∨ st.Lpx a b = some (LpxVal N D (b - a) a b)) ∧
    (st.Lia a b = none ∨ st.Lia a b = some (LiaVal N D (b - a) a b)) ∧
    (st.Lai a b = none ∨ st.Lai a b = some (LaiVal N D (-(b - a)) a b))

/-- All four families hold an entry at key `(a, b)`. -/
def allSome (st : TrState N α) (a b : ZMod N) : Prop :=
  (st.Lpq a b).isSome = true ∧ (st.Lpx a b).isSome = true ∧
  (st.Lia a b).isSome = true ∧ (st.Lai a b).isSome = true

/-- Entries present in `st` are still present in `st'`. -/
def persists (st st' : TrState N α) : Prop :=
  ∀ a b : ZMod N,
    ((st.Lpq a b).isSome = true → (st'.Lpq a b).isSome = true) ∧
    ((st.Lpx a b).isSome = true → (st'.Lpx a b).isSome = true) ∧
    ((st.Lia a b).isSome = true → (st'.Lia a b).isSome = true) ∧
    ((st.Lai a b).isSome = true → (st'.Lai a b).isSome = true)

theorem persists_refl (st : TrState N α) : persists N st st :=
  fun _ _ => ⟨id, id, id, id⟩

theorem persists_trans {st1 st2 st3 : TrState N α} (h1 : persists N st1 st2)
    (h2 : persists N st2 st3) : persists N st1 st3 :=
  fun a b => ⟨fun h => (h2 a b).1 ((h1 a b).1 h), fun h => (h2 a b).2.1 ((h1 a b).2.1 h),
    fun h => (h2 a b).2.2.1 ((h1 a b).2.2.1 h), fun h => (h2 a b).2.2.2 ((h1 a b).2.2.2 h)⟩

theorem upd2_same {γ : Type} (f : ZMod N → ZMod N → Option γ) (a b : ZMod N) (v : γ) :
    upd2 N f a b v a b = some v := by
  rw [upd2]
  exact if_pos ⟨rfl, rfl⟩

theorem upd2_other {γ : Type} (f : ZMod N → ZMod N → Option γ) (a b x y : ZMod N) (v : γ)
    (h : ¬(x = a ∧ y = b)) : upd2 N f a b v x y = f x y := by
  rw [upd2]
  exact if_neg h

theorem upd2_isSome {γ : Type} (f : ZMod N → ZMod N → Option γ) (a b x y : ZMod N) (v : γ)
    (h : (f x y).isSome = true) : (upd2 N f a b v x y).isSome = true := by
  rw [upd2]
  by_cases hc : x = a ∧ y = b
  · rw [if_pos hc]; rfl
  · rw [if_neg hc]; exact h

/-- The state after one full inner iteration with all families requested. -/
def innerWrite (D : TrData N α) (q ki kj qinv : ZMod N) (st : TrState N α) :
    TrState N α :=
  { Lpq := upd2 N st.Lpq ki kj (LpqVal N D ki kj)
    Lpx := upd2 N st.Lpx ki kj (LpxVal N D q ki kj)
    Lia := upd2 N st.Lia ki kj (LiaVal N D q ki kj)
    Lai := upd2 N st.Lai ki kj (LaiVal N D qinv ki kj) }

theorem trInner_cons_ok (D : TrData N α) (q ki : ZMod N) (rest : List (ZMod N))
    (st : TrState N α)
    (h1 : hasLowDim (D.sr ki (memberD N (wrap_around (kvec N q + kvec N ki)))) = false)
    (h2 : hasLowDim (D.sr (memberD N (wrap_around (kvec N q + kvec N ki))) ki) = false) :
    trInner N D true true true q (ki :: rest) st =
      trInner N D true true true (memberD N (wrap_around (-kvec N q))) rest
        (innerWrite N D q ki (memberD N (wrap_around (kvec N q + kvec N ki)))
          (memberD N (wrap_around (-kvec N q))) st) := by
  rw [trInner]
  simp only [h1, h2, Bool.false_eq_true, if_false, if_true]
  rfl

theorem trInner_ok (D : TrData N α) (hOk : ∀ a b : ZMod N, hasLowDim (D.sr a b) = false) :
    ∀ (kis : List (ZMod N)) (q : ZMod N) (st : TrState N α), TrInv N D st →
    ∃ st', trInner N D true true true q kis st = .ok st' ∧ TrInv N D st' ∧
      persists N st st' ∧
      ∀ p, (hp : p < kis.length) →
        allSome N st' (kis.get ⟨p, hp⟩) (kis.get ⟨p, hp⟩ + altQ N q p) := by
  intro kis
  induction kis with
  | nil =>
      intro q st hInv
      exact ⟨st, rfl, hInv, persists_refl N st, fun p hp => absurd hp (by simp)⟩
  | cons ki rest ih =>
      intro q st hInv
      have hWpq : ∀ a b, (innerWrite N D q ki (q + ki) (-q) st).Lpq a b =
          upd2 N st.Lpq ki (q + ki) (LpqVal N D ki (q + ki)) a b := fun _ _ => rfl
      have hWpx : ∀ a b, (innerWrite N D q ki (q + ki) (-q) st).Lpx a b =
          upd2 N st.Lpx ki (q + ki) (LpxVal N D q ki (q + ki)) a b := fun _ _ => rfl
      have hWia : ∀ a b, (innerWrite N D q ki (q + ki) (-q) st).Lia a b =
          upd2 N st.Lia ki (q + ki) (LiaVal N D q ki (q + ki)) a b := fun _ _ => rfl
      have hWai : ∀ a b, (innerWrite N D q ki (q + ki) (-q) st).Lai a b =
          upd2 N st.Lai ki (q + ki) (LaiVal N D (-q) ki (q + ki)) a b := fun _ _ => rfl
      have hsub : q + ki - ki = q := add_sub_cancel_right q ki
      have hInvW : TrInv N D (innerWrite N D q ki (q + ki) (-q) st) := by
        intro a b
        by_cases hab : a = ki ∧ b = q + ki
        · obtain ⟨rfl, rfl⟩ := hab
          refine ⟨Or.inr ?_, Or.inr ?_, Or.inr ?_, Or.inr ?_⟩
          · rw [hWpq, upd2_same]
          · rw [hWpx, hsub, upd2_same]
          · rw [hWia, hsub, upd2_same]
          · rw [hWai, hsub, upd2_same]
        · obtain ⟨hLpq, hLpx, hLia, hLai⟩ := hInv a b
          refine ⟨?_, ?_, ?_, ?_⟩
          · rw [hWpq, upd2_other N _ _ _ _ _ _ hab]; exact hLpq
          · rw [hWpx, upd2_other N _ _ _ _ _ _ hab]; exact hLpx
          · rw [hWia, upd2_other N _ _ _ _ _ _ hab]; exact hLia
          · rw [hWai, upd2_other N _ _ _ _ _ _ hab]; exact hLai
      have hPerW : persists N st (innerWrite N D q ki (q + ki) (-q) st) := by
        intro a b
        refine ⟨?_, ?_, ?_, ?_⟩
        · rw [hWpq]; exact upd2_isSome N _ _ _ _ _ _
        · rw [hWpx]; exact upd2_isSome N _ _ _ _ _ _
        · rw [hWia]; exact upd2_isSome N _ _ _ _ _ _
        · rw [hWai]; exact upd2_isSome N _ _ _ _ _ _
      obtain ⟨st', hfold, hInv', hPer', hCov'⟩ :=
        ih (-q) (innerWrite N D q ki (q + ki) (-q) st) hInvW
      refine ⟨st', ?_, hInv', persists_trans N hPerW hPer', ?_⟩
      · rw [trInner_cons_ok N D q ki rest st (hOk _ _) (hOk _ _),
          memberD_wrap_add, memberD_wrap_neg]
        exact hfold
      · intro p hp
        match p with
        | 0 =>
            have hk2 : ki + altQ N q 0 = q + ki := by rw [altQ_zero, add_comm]
            have hkey : allSome N (innerWrite N D q ki (q + ki) (-q) st) ki
                (ki + altQ N q 0) := by
              rw [hk2]
              refine ⟨?_, ?_, ?_, ?_⟩
              · rw [hWpq, upd2_same]; rfl
              · rw [hWpx, upd2_same]; rfl
              · rw [hWia, upd2_same]; rfl
              · rw [hWai, upd2_same]; rfl
            obtain ⟨hA, hB, hC, hD'⟩ := hkey
            exact ⟨(hPer' _ _).1 hA, (hPer' _ _).2.1 hB, (hPer' _ _).2.2.1 hC,
              (hPer' _ _).2.2.2 hD'⟩
        | p' + 1 =>
            have hp' : p' < rest.length := by simpa using hp
            have hcov := hCov' p' hp'
            rw [altQ_succ]
            exact hcov

theorem TrInv_empty (D : TrData N α) : TrInv N D (TrState.empty N) :=
  fun _ _ => ⟨Or.inl rfl, Or.inl rfl, Or.inl rfl, Or.inl rfl⟩

theorem transform_fold_ok (D : TrData N α)
    (hOk : ∀ a b : ZMod N, hasLowDim (D.sr a b) = false) :
    ∀ (l : List (ZMod N)) (st : TrState N α), TrInv N D st →
    ∃ st', List.foldlM (fun st q => trInner N D true true true q (kList N) st) st l =
        .ok st' ∧
      TrInv N D st' ∧ persists N st st' ∧
      ∀ q ∈ l, ∀ p, p < N →
        allSome N st' ((p : ℕ) : ZMod N) (((p : ℕ) : ZMod N) + altQ N q p) := by
  intro l
  induction l with
  | nil =>
      intro st hInv
      exact ⟨st, rfl, hInv, persists_refl N st, by simp⟩
  | cons q l ih =>
      intro st hInv
      obtain ⟨st1, h1, hInv1, hPer1, hCov1⟩ := trInner_ok N D hOk (kList N) q st hInv
      obtain ⟨st', h2, hInv', hPer', hCov'⟩ := ih st1 hInv1
      refine ⟨st', ?_, hInv', persists_trans N hPer1 hPer', ?_⟩
      · rw [List.foldlM_cons, h1]
        exact h2
      · intro q0 hq0 p hp
        rcases List.mem_cons.1 hq0 with rfl | hq0'
        · have hplen : p < (kList N).length := by rw [kList_length]; exact hp
          have hget : (kList N).get ⟨p, hplen⟩ = ((p : ℕ) : ZMod N) := by
            have h := kList_getElem N p hplen
            simpa using h
          have hks := hCov1 p hplen
          rw [hget] at hks
          exact ⟨(hPer' _ _).1 hks.1, (hPer' _ _).2.1 hks.2.1,
            (hPer' _ _).2.2.1 hks.2.2.1, (hPer' _ _).2.2.2 hks.2.2.2⟩
        · exact hCov' q0 hq0' p hp

/-- **C4.** In `KIntegrals.transform`, for every pair of momentum points
`(ki, kj)` the stored `Lai` block is built from the momentum-inverted
provider pair `(kj, ki)` using the inverted momentum transfer `q → -q`
resolved through wrap-around (`member(wrap_around(-kpts[q]))`), while the
`Lia`, `Lpx` and `Lpq` blocks stored in the same pass for that pair use the
original (non-inverted) transfer `q = kj - ki`; the inversion affects only
the `Lai` construction. -/
theorem transform_inverted_Lai (D : TrData N α)
    (hOk : ∀ a b : ZMod N, hasLowDim (D.sr a b) = false) :
    ∃ st, transform N D true true true = .ok st ∧
      ∀ ki kj : ZMod N,
        st.Lai ki kj =
          some (LaiVal N D (memberD N (wrap_around (-kvec N (kj - ki)))) ki kj) ∧
        st.Lia ki kj = some (LiaVal N D (kj - ki) ki kj) ∧
        st.Lpx ki kj = some (LpxVal N D (kj - ki) ki kj) ∧
        st.Lpq ki kj = some (LpqVal N D ki kj) := by
  obtain ⟨st, hfold, hInv, _, hCov⟩ :=
    transform_fold_ok N D hOk (kList N) (TrState.empty N) (TrInv_empty N D)
  refine ⟨st, ?_, ?_⟩
  · rw [transform, if_neg (by simp)]
    exact hfold
  · intro ki kj
    have hki : ((ki.val : ℕ) : ZMod N) = ki := ZMod.natCast_rightInverse ki
    have hkey : ki + (kj - ki) = kj := by
      rw [add_comm]
      exact sub_add_cancel kj ki
    have hsome : allSome N st ki kj := by
      rcases Nat.even_or_odd ki.val with he | ho
      · have h0 : ki.val % 2 = 0 := Nat.even_iff.1 he
        have hc := hCov (kj - ki) (mem_kList N _) ki.val (ZMod.val_lt ki)
        rw [hki] at hc
        have halt : altQ N (kj - ki) ki.val = kj - ki := if_pos h0
        rw [halt, hkey] at hc
        exact hc
      · have h1 : ki.val % 2 = 1 := Nat.odd_iff.1 ho
        have hc := hCov (-(kj - ki)) (mem_kList N _) ki.val (ZMod.val_lt ki)
        rw [hki] at hc
        have halt : altQ N (-(kj - ki)) ki.val = kj - ki := by
          rw [altQ, if_neg (by omega), neg_neg]
        rw [halt, hkey] at hc
        exact hc
    obtain ⟨hLpq, hLpx, hLia, hLai⟩ := hInv ki kj
    obtain ⟨hs1, hs2, hs3, hs4⟩ := hsome
    refine ⟨?_, ?_, ?_, ?_⟩
    · rw [memberD_wrap_neg]
      rcases hLai with hn | hs
      · rw [hn] at hs4
        exact absurd hs4 (by simp)
      · exact hs
    · rcases hLia with hn | hs
      · rw [hn] at hs3
        exact absurd hs3 (by simp)
      · exact hs
    · rcases hLpx with hn | hs
      · rw [hn] at hs2
        exact absurd hs2 (by simp)
      · exact hs
    · rcases hLpq with hn | hs
      · rw [hn] at hs1
        exact absurd hs1 (by simp)
      · exact hs

/-- Concrete data for the `C4`/`C7` witnesses: one mesh point, one orbital,
a single clean one-row chunk per pair. -/
def trWitnessData : TrData 1 ℚ :=
  TrData.mk 1 1 (fun _ => 1) (fun _ => 1) (fun _ => fun _ _ => 1) (fun _ => fun _ _ => 1)
    (fun _ => fun _ _ => 1) (fun _ _ => [Chunk.mk 1 false (fun _ => fun _ _ => 1)])
    (fun _ => fun _ _ => 1)

/-- Witness for `transform_inverted_Lai` at a concrete instance. -/
theorem transform_inverted_Lai_witness :
    (∀ a b : ZMod 1, hasLowDim (trWitnessData.sr a b) = false) ∧
    (∃ st, transform 1 trWitnessData true true true = .ok st ∧
      ∀ ki kj : ZMod 1,
        st.Lai ki kj =
          some (LaiVal 1 trWitnessData
            (memberD 1 (wrap_around (-kvec 1 (kj - ki)))) ki kj) ∧
        st.Lia ki kj = some (LiaVal 1 trWitnessData (kj - ki) ki kj) ∧
        st.Lpx ki kj = some (LpxVal 1 trWitnessData (kj - ki) ki kj) ∧
        st.Lpq ki kj = some (LpqVal 1 trWitnessData ki kj)) :=
  ⟨by decide, transform_inverted_Lai 1 trWitnessData (by decide)⟩

/-- The effective transfer used by the `p`-th inner iteration for the first
block loop: alternating when `do_Lia` (line-235 rebinding), constant
otherwise. -/
def effQ (dLia : Bool) (q : ZMod N) (p : ℕ) : ZMod N :=
  if dLia then altQ N q p else q

theorem trInner_error (D : TrData N α) (dLpq dLpx dLia : Bool) :
    ∀ (kis : List (ZMod N)) (q : ZMod N) (st : TrState N α) (e : MGWError),
      trInner N D dLpq dLpx dLia q kis st = .error e → e = .unsupportedIntegral := by
  intro kis
  induction kis with
  | nil =>
      intro q st e h
      exact absurd h (by rw [trInner]; simp)
  | cons ki rest ih =>
      intro q st e h
      rw [trInner] at h
      by_cases h1 : hasLowDim (D.sr ki (memberD N (wrap_around (kvec N q + kvec N ki)))) = true
      · rw [if_pos h1] at h
        injection h with h'
        exact h'.symm
      · rw [if_neg h1] at h
        by_cases hL : dLia = true
        · subst hL
          rw [if_pos rfl] at h
          by_cases h2 : hasLowDim
              (D.sr (memberD N (wrap_around (kvec N q + kvec N ki))) ki) = true
          · rw [if_pos h2] at h
            injection h with h'
            exact h'.symm
          · rw [if_neg h2] at h
            exact ih _ _ _ h
        · have hLf : dLia = false := by
            cases dLia
            · rfl
            · exact absurd rfl hL
          subst hLf
          rw [if_neg (by simp)] at h
          exact ih _ _ _ h

theorem trInner_ok_clean (D : TrData N α) (dLpq dLpx dLia : Bool) :
    ∀ (kis : List (ZMod N)) (q : ZMod N) (st st' : TrState N α),
      trInner N D dLpq dLpx dLia q kis st = .ok st' →
      ∀ p, (hp : p < kis.length) →
        hasLowDim (D.sr (kis.get ⟨p, hp⟩)
          ((kis.get ⟨p, hp⟩) + effQ N dLia q p)) = false := by
  intro kis
  induction kis with
  | nil =>
      intro q st st' _ p hp
      exact absurd hp (by simp)
  | cons ki rest ih =>
      intro q st st' h p hp
      rw [trInner] at h
      by_cases h1 : hasLowDim (D.sr ki (memberD N (wrap_around (kvec N q + kvec N ki)))) = true
      · rw [if_pos h1] at h
        exact absurd h (by simp)
      · rw [if_neg h1] at h
        rw [memberD_wrap_add] at h1
        match p with
        | 0 =>
            have hq0 : effQ N dLia q 0 = q := by
              rw [effQ]
              by_cases hL : dLia = true
              · rw [if_pos hL, altQ_zero]
              · rw [if_neg hL]
            show hasLowDim (D.sr ki (ki + effQ N dLia q 0)) = false
            rw [hq0, add_comm]
            simpa using h1
        | p' + 1 =>
            have hp' : p' < rest.length := by simpa using hp
            by_cases hL : dLia = true
            · subst hL
              rw [if_pos rfl] at h
              by_cases h2 : hasLowDim
                  (D.sr (memberD N (wrap_around (kvec N q + kvec N ki))) ki) = true
              · rw [if_pos h2] at h
                exact absurd h (by simp)
              · rw [if_neg h2] at h
                have hrec := ih _ _ _ h p' hp'
                show hasLowDim (D.sr (rest.get ⟨p', hp'⟩)
                  ((rest.get ⟨p', hp'⟩) + effQ N true q (p' + 1))) = false
                have heff : effQ N true q (p' + 1) =
                    effQ N true (memberD N (wrap_around (-kvec N q))) p' := by
                  rw [effQ, effQ, if_pos rfl, if_pos rfl, memberD_wrap_neg, altQ_succ]
                rw [heff]
                exact hrec
            · have hLf : dLia = false := by
                cases dLia
                · rfl
                · exact absurd rfl hL
              subst hLf
              rw [if_neg (by simp)] at h
              have hrec := ih _ _ _ h p' hp'
              show hasLowDim (D.sr (rest.get ⟨p', hp'⟩)
                ((rest.get ⟨p', hp'⟩) + effQ N false q (p' + 1))) = false
              have heff : effQ N false q (p' + 1) = effQ N false q p' := by
                rw [effQ, effQ]
                simp
              rw [heff]
              exact hrec

theorem foldTr_error (D : TrData N α) (dLpq dLpx dLia : Bool) :
    ∀ (l : List (ZMod N)) (st : TrState N α) (e : MGWError),
      List.foldlM (fun st q => trInner N D dLpq dLpx dLia q (kList N) st) st l =
        .error e → e = .unsupportedIntegral := by
  intro l
  induction l with
  | nil =>
      intro st e h
      rw [List.foldlM_nil] at h
      exact Except.noConfusion h
  | cons q l ih =>
      intro st e h
      rw [List.foldlM_cons] at h
      cases hstep : trInner N D dLpq dLpx dLia q (kList N) st with
      | error e0 =>
          rw [hstep] at h
          have h2 : (Except.error e0 : Except MGWError (TrState N α)) = Except.error e := h
          have he : e0 = e := by injection h2
          exact he ▸ trInner_error N D dLpq dLpx dLia (kList N) q st e0 hstep
      | ok st1 =>
          rw [hstep] at h
          exact ih st1 e h

theorem foldTr_ok_elem (D : TrData N α) (dLpq dLpx dLia : Bool) :
    ∀ (l : List (ZMod N)) (st r : TrState N α),
      List.foldlM (fun st q => trInner N D dLpq dLpx dLia q (kList N) st) st l =
        .ok r →
      ∀ q ∈ l, ∃ s s', trInner N D dLpq dLpx dLia q (kList N) s = .ok s' := by
  intro l
  induction l with
  | nil =>
      intro st r _ q hq
      exact absurd hq (List.not_mem_nil q)
  | cons q0 l ih =>
      intro st r h q hq
      rw [List.foldlM_cons] at h
      cases hstep : trInner N D dLpq dLpx dLia q0 (kList N) st with
      | error e0 =>
          rw [hstep] at h
          have h2 : (Except.error e0 : Except MGWError (TrState N α)) = Except.ok r := h
          exact Except.noConfusion h2
      | ok st1 =>
          rw [hstep] at h
          rcases List.mem_cons.1 hq with rfl | hq'
          · exact ⟨st, st1, hstep⟩
          · exact ih st1 r h q hq'

theorem transform_ok_clean (D : TrData N α) (dLpq dLpx dLia : Bool) (st' : TrState N α)
    (h : transform N D dLpq dLpx dLia = .ok st')
    (hflag : dLpq = true ∨ dLpx = true ∨ dLia = true) :
    ∀ a b : ZMod N, hasLowDim (D.sr a b) = false := by
  intro a b
  rw [transform, if_neg (not_not_intro hflag)] at h
  have hget : ∀ (hp : a.val < (kList N).length),
      (kList N).get ⟨a.val, hp⟩ = a := by
    intro hp
    have hg := kList_getElem N a.val hp
    have := ZMod.natCast_rightInverse a
    simp only [List.get_eq_getElem]
    rw [hg, this]
  have hplen : a.val < (kList N).length := by
    rw [kList_length]
    exact ZMod.val_lt a
  by_cases hL : dLia = true
  · rcases Nat.even_or_odd a.val with he | ho
    · have h0 : a.val % 2 = 0 := Nat.even_iff.1 he
      obtain ⟨s, s', hstep⟩ := foldTr_ok_elem N D dLpq dLpx dLia (kList N) _ st' h
        (b - a) (mem_kList N _)
      have hclean := trInner_ok_clean N D dLpq dLpx dLia (kList N) (b - a) s s' hstep
        a.val hplen
      rw [hget hplen] at hclean
      have heff : effQ N dLia (b - a) a.val = b - a := by
        rw [effQ, if_pos hL, altQ, if_pos h0]
      rw [heff] at hclean
      have hkey : a + (b - a) = b := by
        rw [add_comm]
        exact sub_add_cancel b a
      rw [hkey] at hclean
      exact hclean
    · have h1 : a.val % 2 = 1 := Nat.odd_iff.1 ho
      obtain ⟨s, s', hstep⟩ := foldTr_ok_elem N D dLpq dLpx dLia (kList N) _ st' h
        (-(b - a)) (mem_kList N _)
      have hclean := trInner_ok_clean N D dLpq dLpx dLia (kList N) (-(b - a)) s s' hstep
        a.val hplen
      rw [hget hplen] at hclean
      have heff : effQ N dLia (-(b - a)) a.val = b - a := by
        rw [effQ, if_pos hL, altQ, if_neg (by omega), neg_neg]
      rw [heff] at hclean
      have hkey : a + (b - a) = b := by
        rw [add_comm]
        exact sub_add_cancel b a
      rw [hkey] at hclean
      exact hclean
  · obtain ⟨s, s', hstep⟩ := foldTr_ok_elem N D dLpq dLpx dLia (kList N) _ st' h
      (b - a) (mem_kList N _)
    have hclean := trInner_ok_clean N D dLpq dLpx dLia (kList N) (b - a) s s' hstep
      a.val hplen
    rw [hget hplen] at hclean
    have hLf : dLia = false := by
      cases dLia
      · rfl
      · exact absurd rfl hL
    have heff : effQ N dLia (b - a) a.val = b - a := by
      rw [effQ, hLf]
      simp
    rw [heff] at hclean
    have hkey : a + (b - a) = b := by
      rw [add_comm]
      exact sub_add_cancel b a
    rw [hkey] at hclean
    exact hclean

/-- **C7.** Whenever the density-fitting provider reports a low-dimensional
(non-3D-periodic) block for some momentum-point pair, `KIntegrals.transform`
(with at least one family requested, so that the streaming loops run) fails
with `UnsupportedIntegralError` (the `NotImplementedError("Low dimensional
integrals")` of `ints.py:182,241`) — the monadic embedding aborts at the
first sentinel, with no retry and no dictionary assignment. -/
theorem transform_low_dimensional_error (D : TrData N α) (dLpq dLpx dLia : Bool)
    (hflag : dLpq = true ∨ dLpx = true ∨ dLia = true)
    (hbad : ∃ a b : ZMod N, hasLowDim (D.sr a b) = true) :
    transform N D dLpq dLpx dLia = .error .unsupportedIntegral := by
  cases hres : transform N D dLpq dLpx dLia with
  | ok st =>
      obtain ⟨a, b, hab⟩ := hbad
      have := transform_ok_clean N D dLpq dLpx dLia st hres hflag a b
      rw [this] at hab
      exact absurd hab (by simp)
  | error e =>
      have he : e = .unsupportedIntegral := by
        rw [transform, if_neg (not_not_intro hflag)] at hres
        exact foldTr_error N D dLpq dLpx dLia (kList N) (TrState.empty N) e hres
      rw [he]

/-- Concrete data for the `C7` witness: as `trWitnessData` but with the
low-dimensionality sentinel set on every chunk. -/
def trBadData : TrData 1 ℚ :=
  TrData.mk 1 1 (fun _ => 1) (fun _ => 1) (fun _ => fun _ _ => 1) (fun _ => fun _ _ => 1)
    (fun _ => fun _ _ => 1) (fun _ _ => [Chunk.mk 1 true (fun _ => fun _ _ => 1)])
    (fun _ => fun _ _ => 1)

/-- Witness for `transform_low_dimensional_error` at a concrete instance. -/
theorem transform_low_dimensional_error_witness :
    ((true : Bool) = true ∨ (true : Bool) = true ∨ (true : Bool) = true) ∧
    (∃ a b : ZMod 1, hasLowDim (trBadData.sr a b) = true) ∧
    transform 1 trBadData true true true = .error .unsupportedIntegral :=
  ⟨Or.inl rfl, ⟨0, 0, by decide⟩,
    transform_low_dimensional_error 1 trBadData true true true (Or.inl rfl)
      ⟨0, 0, by decide⟩⟩

end Transform

section JK

/-!
## `KIntegrals.get_j` / `KIntegrals.get_k` (`momentGW/pbc/ints.py:275-394`)

Both builders have a fast path over the stored full tensor (`store_full` and
`basis == "mo"`; `self.Lpq[ki, kj]` is the transform's `LpqVal`) and a
memory-bounded path that re-streams the provider in chunks, converts the
density to the shared (AO) basis, contracts, and converts back; both divide
by `len(self.kpts)` at the end.  MPI `allreduce` is the identity collective.
-/

variable {α : Type} [Field α] [StarRing α]
variable (N : ℕ) [NeZero N]

/-- `dm = lib.einsum("kij,kpi,kqj->kpq", dm, self.mo_coeff,
np.conj(self.mo_coeff))` (`ints.py:296`, `ints.py:358`): the density matrix
taken to the AO basis. -/
def dmAO (D : TrData N α) (dm : ZMod N → Mat α) (k : ZMod N) : Mat α :=
  fun p q =>
    ∑ i ∈ Finset.range D.nmo, ∑ j ∈ Finset.range D.nmo,
      dm k i j * D.C k p i * star (D.C k q j)

/-- The fast-path Coulomb builder (`ints.py:282-292`, then `vj /= nkpts`):
`buf = Σ_kk einsum("Lpq,pq->L", Lpq[kk,kk], dm[kk].conj())`, then
`vj[ki] = einsum("Lpq,L->pq", Lpq[ki,ki], buf)`. -/
def getJ_full (D : TrData N α) (dm : ZMod N → Mat α) : ZMod N → Mat α :=
  fun ki =>
    msmul ((N : α))⁻¹ (fun i j =>
      ∑ L ∈ Finset.range D.nauxFull,
        LpqVal N D ki ki L i j *
          (∑ kk : ZMod N, ∑ a ∈ Finset.range D.nmo, ∑ b ∈ Finset.range D.nmo,
            LpqVal N D kk kk L a b * star (dm kk a b)))

/-- The streamed Coulomb buffer (`ints.py:298-310`): `buf[b0:b1] +=
einsum("Lpq,pq->L", block, dm[kk].conj())` accumulated over the diagonal
pairs, at global row `L`. -/
def jBufStream (D : TrData N α) (dmao : ZMod N → Mat α) (L : ℕ) : α :=
  ∑ kk : ZMod N,
    sliceAssign
      (fun M => ∑ p ∈ Finset.range D.nmo, ∑ q ∈ Finset.range D.nmo,
        M p q * star (dmao kk p q))
      (D.sr kk kk) L

/-- The memory-bounded Coulomb builder (`ints.py:294-327`, then
`vj /= nkpts`): re-streams the diagonal provider blocks (raising on the
low-dimensionality sentinel), accumulates the auxiliary buffer, contracts it
back (`vj[ki] += einsum("Lpq,L->pq", block, buf[b0:b1])`) and returns to the
MO basis. -/
def getJ_stream (D : TrData N α) (dm : ZMod N → Mat α) :
    Except MGWError (ZMod N → Mat α) :=
  if ∃ kk : ZMod N, hasLowDim (D.sr kk kk) = true then .error .unsupportedIntegral
  else
    .ok (fun ki =>
      msmul ((N : α))⁻¹ (fun i j =>
        ∑ p ∈ Finset.range D.nmo, ∑ q ∈ Finset.range D.nmo,
          star (D.C ki p i) * D.C ki q j *
            rowSum (fun L M => M p q * jBufStream N D (dmAO N D dm) L)
              (D.sr ki ki)))

/-- The fast-path exchange builder (`ints.py:338-354`, then `vk /= nkpts`):
`buf[kk,ki] = einsum("Lpq,qr->Lrp", Lpq[ki,kk], dm[kk])`, then `vk[ki] +=
einsum("Lrp,Lrs->ps", buf[kk,ki], Lpq[kk,ki])`, summed over the auxiliary
slabs of `lib.prange` (a pure partition of the `L` sum, written here as one
sum over the full auxiliary range). -/
def getK_full (D : TrData N α) (dm : ZMod N → Mat α) : ZMod N → Mat α :=
  fun ki =>
    msmul ((N : α))⁻¹ (fun a d =>
      ∑ kk : ZMod N, ∑ L ∈ Finset.range D.nauxFull, ∑ c ∈ Finset.range D.nmo,
        (∑ b ∈ Finset.range D.nmo, LpqVal N D ki kk L a b * dm kk b c) *
          LpqVal N D kk ki L c d)

/-- The streamed exchange buffer (`ints.py:361-370`): `buf[ki, b0:b1] =
einsum("Lpq,qr->Lrp", block, dm[kk])` over the stream of the pair
`(ki, kk)`, at global row `L` (row index `r`, column index `p`). -/
def kBufStream (D : TrData N α) (dmao : ZMod N → Mat α) (ki kk : ZMod N) :
    ℕ → Mat α :=
  sliceAssign
    (fun M => fun r p =>
      ∑ q ∈ Finset.range D.nmo, M p q * dmao kk q r)
    (D.sr ki kk)

/-- The memory-bounded exchange builder (`ints.py:356-389`, then
`vk /= nkpts`): for every `kk`, build the buffer from the `(ki, kk)` streams,
contract against the `(kk, ki)` streams (`vk[ki] +=
einsum("Lrp,Lrs->ps", buf[ki, b0:b1], block)`), and return to the MO
basis. -/
def getK_stream (D : TrData N α) (dm : ZMod N → Mat α) :
    Except MGWError (ZMod N → Mat α) :=
  if ∃ a b : ZMod N, hasLowDim (D.sr a b) = true then .error .unsupportedIntegral
  else
    .ok (fun ki =>
      msmul ((N : α))⁻¹ (fun i j =>
        ∑ p ∈ Finset.range D.nmo, ∑ s ∈ Finset.range D.nmo,
          star (D.C ki p i) * D.C ki s j *
            (∑ kk : ZMod N,
              rowSum (fun L M =>
                  ∑ r ∈ Finset.range D.nmo,
                    kBufStream N D (dmAO N D dm) ki kk L r p * M r s)
                (D.sr kk ki))))

theorem LpqVal_stack (D : TrData N α) (ki kj : ZMod N) (L i j : ℕ) :
    LpqVal N D ki kj L i j =
      ∑ p ∈ Finset.range D.nmo, ∑ r ∈ Finset.range D.nmo,
        stackGet (D.sr ki kj) L p r * star (D.C ki p i) * D.C kj r j := by
  rw [LpqVal]
  rw [sliceAssign_eq_stackGet]

theorem sum_swap3 {β : Type} [AddCommMonoid β] {ι1 ι2 ι3 : Type}
    (s1 : Finset ι1) (s2 : Finset ι2) (s3 : Finset ι3) (f : ι1 → ι2 → ι3 → β) :
    (∑ p ∈ s1, ∑ q ∈ s2, ∑ L ∈ s3, f p q L) =
      ∑ L ∈ s3, ∑ p ∈ s1, ∑ q ∈ s2, f p q L := by
  have h1 : ∀ p, (∑ q ∈ s2, ∑ L ∈ s3, f p q L) = ∑ L ∈ s3, ∑ q ∈ s2, f p q L :=
    fun p => Finset.sum_comm
  rw [Finset.sum_congr rfl fun p _ => h1 p, Finset.sum_comm]

theorem sum_swap4 {β : Type} [AddCommMonoid β] {ι1 ι2 ι3 ι4 : Type}
    (s1 : Finset ι1) (s2 : Finset ι2) (s3 : Finset ι3) (s4 : Finset ι4)
    (f : ι1 → ι2 → ι3 → ι4 → β) :
    (∑ p ∈ s1, ∑ q ∈ s2, ∑ a ∈ s3, ∑ b ∈ s4, f p q a b) =
      ∑ a ∈ s3, ∑ b ∈ s4, ∑ p ∈ s1, ∑ q ∈ s2, f p q a b := by
  have h1 : ∀ p, (∑ q ∈ s2, ∑ a ∈ s3, ∑ b ∈ s4, f p q a b) =
      ∑ a ∈ s3, ∑ q ∈ s2, ∑ b ∈ s4, f p q a b :=
    fun p => Finset.sum_comm
  rw [Finset.sum_congr rfl fun p _ => h1 p, Finset.sum_comm]
  refine Finset.sum_congr rfl fun a _ => ?_
  have h2 : ∀ p, (∑ q ∈ s2, ∑ b ∈ s4, f p q a b) = ∑ b ∈ s4, ∑ q ∈ s2, f p q a b :=
    fun p => Finset.sum_comm
  rw [Finset.sum_congr rfl fun p _ => h2 p, Finset.sum_comm]

/-- The streamed Coulomb buffer equals the fast path's buffer: the AO-basis
contraction against the converted density matches the MO-basis contraction
against the stored full tensor. -/
theorem jBuf_eq (D : TrData N α) (dm : ZMod N → Mat α) (L : ℕ) :
    jBufStream N D (dmAO N D dm) L =
      ∑ kk : ZMod N, ∑ a ∈ Finset.range D.nmo, ∑ b ∈ Finset.range D.nmo,
        LpqVal N D kk kk L a b * star (dm kk a b) := by
  rw [jBufStream]
  refine Finset.sum_congr rfl fun kk _ => ?_
  rw [sliceAssign_eq_stackGet]
  have hL : (∑ p ∈ Finset.range D.nmo, ∑ q ∈ Finset.range D.nmo,
      stackGet (D.sr kk kk) L p q * star (dmAO N D dm kk p q)) =
      ∑ p ∈ Finset.range D.nmo, ∑ q ∈ Finset.range D.nmo,
        ∑ a ∈ Finset.range D.nmo, ∑ b ∈ Finset.range D.nmo,
          stackGet (D.sr kk kk) L p q * star (D.C kk p a) * D.C kk q b *
            star (dm kk a b) := by
    refine Finset.sum_congr rfl fun p _ => Finset.sum_congr rfl fun q _ => ?_
    rw [dmAO, star_sum, Finset.mul_sum]
    refine Finset.sum_congr rfl fun a _ => ?_
    rw [star_sum, Finset.mul_sum]
    refine Finset.sum_congr rfl fun b _ => ?_
    rw [star_mul', star_mul', star_star]
    ring
  rw [hL, sum_swap4]
  refine Finset.sum_congr rfl fun a _ => Finset.sum_congr rfl fun b _ => ?_
  rw [LpqVal_stack]
  rw [Finset.sum_mul]
  refine Finset.sum_congr rfl fun p _ => ?_
  rw [Finset.sum_mul]

/-- **C5 (Coulomb part), helper.**  The two `get_j` code paths agree in
exact arithmetic. -/
theorem getJ_equiv (D : TrData N α) (dm : ZMod N → Mat α)
    (hTot : ∀ k : ZMod N, totalRows (D.sr k k) = D.nauxFull)
    (hOk : ∀ k : ZMod N, hasLowDim (D.sr k k) = false) :
    getJ_stream N D dm = .ok (getJ_full N D dm) := by
  rw [getJ_stream, if_neg]
  · congr 1
    funext ki i j
    show ((N : α))⁻¹ * _ = ((N : α))⁻¹ * _
    congr 1
    have hone : ∀ p q : ℕ,
        rowSum (fun L M => M p q * jBufStream N D (dmAO N D dm) L) (D.sr ki ki) =
          ∑ L ∈ Finset.range D.nauxFull,
            stackGet (D.sr ki ki) L p q * jBufStream N D (dmAO N D dm) L := by
      intro p q
      rw [rowSum_eq_sum, hTot ki]
    calc
      (∑ p ∈ Finset.range D.nmo, ∑ q ∈ Finset.range D.nmo,
          star (D.C ki p i) * D.C ki q j *
            rowSum (fun L M => M p q * jBufStream N D (dmAO N D dm) L) (D.sr ki ki)) =
          ∑ p ∈ Finset.range D.nmo, ∑ q ∈ Finset.range D.nmo,
            ∑ L ∈ Finset.range D.nauxFull,
              star (D.C ki p i) * D.C ki q j *
                (stackGet (D.sr ki ki) L p q * jBufStream N D (dmAO N D dm) L) := by
        refine Finset.sum_congr rfl fun p _ => Finset.sum_congr rfl fun q _ => ?_
        rw [hone p q, Finset.mul_sum]
      _ = ∑ L ∈ Finset.range D.nauxFull,
            ∑ p ∈ Finset.range D.nmo, ∑ q ∈ Finset.range D.nmo,
              star (D.C ki p i) * D.C ki q j *
                (stackGet (D.sr ki ki) L p q * jBufStream N D (dmAO N D dm) L) :=
        sum_swap3 _ _ _ _
      _ = ∑ L ∈ Finset.range D.nauxFull,
            LpqVal N D ki ki L i j *
              (∑ kk : ZMod N, ∑ a ∈ Finset.range D.nmo, ∑ b ∈ Finset.range D.nmo,
                LpqVal N D kk kk L a b * star (dm kk a b)) := by
        refine Finset.sum_congr rfl fun L _ => ?_
        rw [LpqVal_stack, Finset.sum_mul]
        refine Finset.sum_congr rfl fun p _ => ?_
        rw [Finset.sum_mul]
        refine Finset.sum_congr rfl fun q _ => ?_
        rw [jBuf_eq]
        ring
  · rintro ⟨kk, hk⟩
    rw [hOk] at hk
    exact absurd hk (by simp)

theorem kBuf_stack (D : TrData N α) (dmao : ZMod N → Mat α) (ki kk : ZMod N)
    (L r p : ℕ) :
    kBufStream N D dmao ki kk L r p =
      ∑ q ∈ Finset.range D.nmo, stackGet (D.sr ki kk) L p q * dmao kk q r := by
  rw [kBufStream]
  rw [sliceAssign_eq_stackGet]

/-- The canonical fully-expanded exchange monomial sum at one auxiliary row:
both `get_k` code paths reduce to it. -/
def kCanon (D : TrData N α) (dm : ZMod N → Mat α) (ki kk : ZMod N)
    (i j L : ℕ) : α :=
  ∑ p ∈ Finset.range D.nmo, ∑ q ∈ Finset.range D.nmo,
    ∑ r ∈ Finset.range D.nmo, ∑ s ∈ Finset.range D.nmo,
      ∑ a ∈ Finset.range D.nmo, ∑ b ∈ Finset.range D.nmo,
        star (D.C ki p i) * D.C ki s j *
          stackGet (D.sr ki kk) L p q * stackGet (D.sr kk ki) L r s *
          (dm kk a b * D.C kk q a * star (D.C kk r b))

theorem kStream_canon (D : TrData N α) (dm : ZMod N → Mat α) (ki kk : ZMod N)
    (i j L : ℕ) :
    (∑ p ∈ Finset.range D.nmo, ∑ s ∈ Finset.range D.nmo,
        star (D.C ki p i) * D.C ki s j *
          (∑ r ∈ Finset.range D.nmo,
            (∑ q ∈ Finset.range D.nmo,
              stackGet (D.sr ki kk) L p q * dmAO N D dm kk q r) *
            stackGet (D.sr kk ki) L r s)) =
      kCanon N D dm ki kk i j L := by
  have h1 : (∑ p ∈ Finset.range D.nmo, ∑ s ∈ Finset.range D.nmo,
      star (D.C ki p i) * D.C ki s j *
        (∑ r ∈ Finset.range D.nmo,
          (∑ q ∈ Finset.range D.nmo,
            stackGet (D.sr ki kk) L p q * dmAO N D dm kk q r) *
          stackGet (D.sr kk ki) L r s)) =
      ∑ p ∈ Finset.range D.nmo, ∑ s ∈ Finset.range D.nmo,
        ∑ r ∈ Finset.range D.nmo, ∑ q ∈ Finset.range D.nmo,
          star (D.C ki p i) * D.C ki s j *
            stackGet (D.sr ki kk) L p q * stackGet (D.sr kk ki) L r s *
            dmAO N D dm kk q r := by
    refine Finset.sum_congr rfl fun p _ => Finset.sum_congr rfl fun s _ => ?_
    rw [Finset.mul_sum]
    refine Finset.sum_congr rfl fun r _ => ?_
    rw [Finset.sum_mul, Finset.mul_sum]
    refine Finset.sum_congr rfl fun q _ => ?_
    ring
  rw [h1]
  have h2 : (∑ p ∈ Finset.range D.nmo, ∑ s ∈ Finset.range D.nmo,
      ∑ r ∈ Finset.range D.nmo, ∑ q ∈ Finset.range D.nmo,
        star (D.C ki p i) * D.C ki s j *
          stackGet (D.sr ki kk) L p q * stackGet (D.sr kk ki) L r s *
          dmAO N D dm kk q r) =
      ∑ p ∈ Finset.range D.nmo, ∑ q ∈ Finset.range D.nmo,
        ∑ r ∈ Finset.range D.nmo, ∑ s ∈ Finset.range D.nmo,
          star (D.C ki p i) * D.C ki s j *
            stackGet (D.sr ki kk) L p q * stackGet (D.sr kk ki) L r s *
            dmAO N D dm kk q r := by
    refine Finset.sum_congr rfl fun p _ => ?_
    rw [sum_swap3]
    refine Finset.sum_congr rfl fun q _ => Finset.sum_comm
  rw [h2, kCanon]
  refine Finset.sum_congr rfl fun p _ => Finset.sum_congr rfl fun q _ => ?_
  refine Finset.sum_congr rfl fun r _ => Finset.sum_congr rfl fun s _ => ?_
  rw [dmAO, Finset.mul_sum]
  refine Finset.sum_congr rfl fun a _ => ?_
  rw [Finset.mul_sum]

theorem kFast_canon (D : TrData N α) (dm : ZMod N → Mat α) (ki kk : ZMod N)
    (i j L : ℕ) :
    (∑ c ∈ Finset.range D.nmo,
        (∑ b ∈ Finset.range D.nmo, LpqVal N D ki kk L i b * dm kk b c) *
          LpqVal N D kk ki L c j) =
      kCanon N D dm ki kk i j L := by
  have h1 : (∑ c ∈ Finset.range D.nmo,
      (∑ b ∈ Finset.range D.nmo, LpqVal N D ki kk L i b * dm kk b c) *
        LpqVal N D kk ki L c j) =
      ∑ c ∈ Finset.range D.nmo, ∑ b ∈ Finset.range D.nmo,
        ∑ p ∈ Finset.range D.nmo, ∑ q ∈ Finset.range D.nmo,
          ∑ r ∈ Finset.range D.nmo, ∑ s ∈ Finset.range D.nmo,
            star (D.C ki p i) * D.C ki s j *
              stackGet (D.sr ki kk) L p q * stackGet (D.sr kk ki) L r s *
              (dm kk b c * D.C kk q b * star (D.C kk r c)) := by
    refine Finset.sum_congr rfl fun c _ => ?_
    rw [Finset.sum_mul]
    refine Finset.sum_congr rfl fun b _ => ?_
    rw [LpqVal_stack, Finset.sum_mul, Finset.sum_mul]
    refine Finset.sum_congr rfl fun p _ => ?_
    rw [Finset.sum_mul, Finset.sum_mul]
    refine Finset.sum_congr rfl fun q _ => ?_
    rw [LpqVal_stack, Finset.mul_sum]
    refine Finset.sum_congr rfl fun r _ => ?_
    rw [Finset.mul_sum]
    refine Finset.sum_congr rfl fun s _ => ?_
    ring
  rw [h1]
  have h2 : (∑ c ∈ Finset.range D.nmo, ∑ b ∈ Finset.range D.nmo,
      ∑ p ∈ Finset.range D.nmo, ∑ q ∈ Finset.range D.nmo,
        ∑ r ∈ Finset.range D.nmo, ∑ s ∈ Finset.range D.nmo,
          star (D.C ki p i) * D.C ki s j *
            stackGet (D.sr ki kk) L p q * stackGet (D.sr kk ki) L r s *
            (dm kk b c * D.C kk q b * star (D.C kk r c))) =
      ∑ p ∈ Finset.range D.nmo, ∑ q ∈ Finset.range D.nmo,
        ∑ c ∈ Finset.range D.nmo, ∑ b ∈ Finset.range D.nmo,
          ∑ r ∈ Finset.range D.nmo, ∑ s ∈ Finset.range D.nmo,
            star (D.C ki p i) * D.C ki s j *
              stackGet (D.sr ki kk) L p q * stackGet (D.sr kk ki) L r s *
              (dm kk b c * D.C kk q b * star (D.C kk r c)) :=
    sum_swap4 _ _ _ _ _
  rw [h2, kCanon]
  refine Finset.sum_congr rfl fun p _ => Finset.sum_congr rfl fun q _ => ?_
  have h3 : (∑ c ∈ Finset.range D.nmo, ∑ b ∈ Finset.range D.nmo,
      ∑ r ∈ Finset.range D.nmo, ∑ s ∈ Finset.range D.nmo,
        star (D.C ki p i) * D.C ki s j *
          stackGet (D.sr ki kk) L p q * stackGet (D.sr kk ki) L r s *
          (dm kk b c * D.C kk q b * star (D.C kk r c))) =
      ∑ r ∈ Finset.range D.nmo, ∑ s ∈ Finset.range D.nmo,
        ∑ c ∈ Finset.range D.nmo, ∑ b ∈ Finset.range D.nmo,
          star (D.C ki p i) * D.C ki s j *
            stackGet (D.sr ki kk) L p q * stackGet (D.sr kk ki) L r s *
            (dm kk b c * D.C kk q b * star (D.C kk r c)) :=
    sum_swap4 _ _ _ _ _
  rw [h3]
  refine Finset.sum_congr rfl fun r _ => Finset.sum_congr rfl fun s _ => ?_
  rw [Finset.sum_comm]

/-- **C5 (exchange part), helper.**  The two `get_k` code paths agree in
exact arithmetic. -/
theorem getK_equiv (D : TrData N α) (dm : ZMod N → Mat α)
    (hTot : ∀ a b : ZMod N, totalRows (D.sr a b) = D.nauxFull)
    (hOk : ∀ a b : ZMod N, hasLowDim (D.sr a b) = false) :
    getK_stream N D dm = .ok (getK_full N D dm) := by
  rw [getK_stream, if_neg]
  · congr 1
    funext ki i j
    show ((N : α))⁻¹ * _ = ((N : α))⁻¹ * _
    congr 1
    have hrow : ∀ kk : ZMod N, ∀ p s : ℕ,
        rowSum (fun L M => ∑ r ∈ Finset.range D.nmo,
            kBufStream N D (dmAO N D dm) ki kk L r p * M r s) (D.sr kk ki) =
          ∑ L ∈ Finset.range D.nauxFull, ∑ r ∈ Finset.range D.nmo,
            (∑ q ∈ Finset.range D.nmo,
              stackGet (D.sr ki kk) L p q * dmAO N D dm kk q r) *
            stackGet (D.sr kk ki) L r s := by
      intro kk p s
      rw [rowSum_eq_sum, hTot kk ki]
      refine Finset.sum_congr rfl fun L _ => Finset.sum_congr rfl fun r _ => ?_
      rw [kBuf_stack]
    calc
      (∑ p ∈ Finset.range D.nmo, ∑ s ∈ Finset.range D.nmo,
          star (D.C ki p i) * D.C ki s j *
            (∑ kk : ZMod N,
              rowSum (fun L M => ∑ r ∈ Finset.range D.nmo,
                  kBufStream N D (dmAO N D dm) ki kk L r p * M r s) (D.sr kk ki))) =
          ∑ p ∈ Finset.range D.nmo, ∑ s ∈ Finset.range D.nmo, ∑ kk : ZMod N,
            star (D.C ki p i) * D.C ki s j *
              (∑ L ∈ Finset.range D.nauxFull, ∑ r ∈ Finset.range D.nmo,
                (∑ q ∈ Finset.range D.nmo,
                  stackGet (D.sr ki kk) L p q * dmAO N D dm kk q r) *
                stackGet (D.sr kk ki) L r s) := by
        refine Finset.sum_congr rfl fun p _ => Finset.sum_congr rfl fun s _ => ?_
        rw [Finset.mul_sum]
        refine Finset.sum_congr rfl fun kk _ => ?_
        rw [hrow kk p s]
      _ = ∑ kk : ZMod N, ∑ p ∈ Finset.range D.nmo, ∑ s ∈ Finset.range D.nmo,
            star (D.C ki p i) * D.C ki s j *
              (∑ L ∈ Finset.range D.nauxFull, ∑ r ∈ Finset.range D.nmo,
                (∑ q ∈ Finset.range D.nmo,
                  stackGet (D.sr ki kk) L p q * dmAO N D dm kk q r) *
                stackGet (D.sr kk ki) L r s) := sum_swap3 _ _ _ _
      _ = ∑ kk : ZMod N, ∑ L ∈ Finset.range D.nauxFull,
            ∑ c ∈ Finset.range D.nmo,
              (∑ b ∈ Finset.range D.nmo, LpqVal N D ki kk L i b * dm kk b c) *
                LpqVal N D kk ki L c j := by
        refine Finset.sum_congr rfl fun kk _ => ?_
        calc
          (∑ p ∈ Finset.range D.nmo, ∑ s ∈ Finset.range D.nmo,
              star (D.C ki p i) * D.C ki s j *
                (∑ L ∈ Finset.range D.nauxFull, ∑ r ∈ Finset.range D.nmo,
                  (∑ q ∈ Finset.range D.nmo,
                    stackGet (D.sr ki kk) L p q * dmAO N D dm kk q r) *
                  stackGet (D.sr kk ki) L r s)) =
              ∑ p ∈ Finset.range D.nmo, ∑ s ∈ Finset.range D.nmo,
                ∑ L ∈ Finset.range D.nauxFull,
                  star (D.C ki p i) * D.C ki s j *
                    (∑ r ∈ Finset.range D.nmo,
                      (∑ q ∈ Finset.range D.nmo,
                        stackGet (D.sr ki kk) L p q * dmAO N D dm kk q r) *
                      stackGet (D.sr kk ki) L r s) := by
            refine Finset.sum_congr rfl fun p _ => Finset.sum_congr rfl fun s _ => ?_
            rw [Finset.mul_sum]
          _ = ∑ L ∈ Finset.range D.nauxFull,
                ∑ p ∈ Finset.range D.nmo, ∑ s ∈ Finset.range D.nmo,
                  star (D.C ki p i) * D.C ki s j *
                    (∑ r ∈ Finset.range D.nmo,
                      (∑ q ∈ Finset.range D.nmo,
                        stackGet (D.sr ki kk) L p q * dmAO N D dm kk q r) *
                      stackGet (D.sr kk ki) L r s) := sum_swap3 _ _ _ _
          _ = ∑ L ∈ Finset.range D.nauxFull,
                ∑ c ∈ Finset.range D.nmo,
                  (∑ b ∈ Finset.range D.nmo, LpqVal N D ki kk L i b * dm kk b c) *
                    LpqVal N D kk ki L c j := by
            refine Finset.sum_congr rfl fun L _ => ?_
            rw [kStream_canon, ← kFast_canon]
  · rintro ⟨a, b, hk⟩
    rw [hOk] at hk
    exact absurd hk (by simp)

/-- **C5.** For any density matrix (in the MO basis, where the fast path
exists), the Coulomb matrix returned by `get_j` and the exchange matrix
returned by `get_k` are the same in exact arithmetic whether computed through
the fast path over the stored full uncompressed tensor or through the
memory-bounded path that re-streams the provider in chunks; both paths carry
the common final normalization by the number of mesh points.  The provider
contract supplies `naux_full` total rows per stream and no low-dimensional
sentinel (on which both paths raise instead). -/
theorem get_jk_path_equivalence (D : TrData N α) (dm : ZMod N → Mat α)
    (hTot : ∀ a b : ZMod N, totalRows (D.sr a b) = D.nauxFull)
    (hOk : ∀ a b : ZMod N, hasLowDim (D.sr a b) = false) :
    getJ_stream N D dm = .ok (getJ_full N D dm) ∧
    getK_stream N D dm = .ok (getK_full N D dm) :=
  ⟨getJ_equiv N D dm (fun k => hTot k k) (fun k => hOk k k),
    getK_equiv N D dm hTot hOk⟩

/-- Witness for `get_jk_path_equivalence` at a concrete instance. -/
theorem get_jk_path_equivalence_witness :
    ((∀ a b : ZMod 1, totalRows (trWitnessData.sr a b) = trWitnessData.nauxFull) ∧
      (∀ a b : ZMod 1, hasLowDim (trWitnessData.sr a b) = false)) ∧
    (getJ_stream 1 trWitnessData (fun _ => fun _ _ => (1 : ℚ)) =
        .ok (getJ_full 1 trWitnessData (fun _ => fun _ _ => (1 : ℚ))) ∧
      getK_stream 1 trWitnessData (fun _ => fun _ _ => (1 : ℚ)) =
        .ok (getK_full 1 trWitnessData (fun _ => fun _ _ => (1 : ℚ)))) :=
  ⟨⟨by decide, by decide⟩,
    get_jk_path_equivalence 1 trWitnessData (fun _ => fun _ _ => (1 : ℚ))
      (by decide) (by decide)⟩

end JK

section Compression

/-!
## `KIntegrals.get_compression_metric` (`momentGW/pbc/ints.py:45-119`)

The accumulated metric `prod[q] += np.dot(Lxy, Lxy.T.conj()) / len(self.kpts)`
is embedded over an abstract list of transformed blocks; the
eigendecomposition `np.linalg.eigh` is the external LAPACK collaborator, so
its output `(e, v)` (real eigenvalues, eigenvector columns) is data, and the
code's subsequent mask/truncation/`None` logic is embedded exactly.
-/

variable {α : Type} [Field α] [StarRing α]

/-- `prod[q] = Σ np.dot(Lxy, Lxy.T.conj()) / nkpts` over the required blocks
(`ints.py:76-93`): each entry of `blocks` is a transformed `Lxy` with its
inner (flattened orbital-pair) dimension. -/
def prodMetric (blocks : List (Mat α × ℕ)) (nk : ℕ) : Mat α :=
  (blocks.map (fun B => msmul ((nk : α))⁻¹ (mmul B.1 (ctrans B.1) B.2))).sum

/-- The accumulated metric is Hermitian (spec §4.3: "a q-resolved Gram
matrix"). -/
theorem prodMetric_hermitian (blocks : List (Mat α × ℕ)) (nk : ℕ) :
    ctrans (prodMetric blocks nk) = prodMetric blocks nk := by
  induction blocks with
  | nil =>
      funext i j
      show star (0 : α) = 0
      exact star_zero α
  | cons B bs ih =>
      funext i j
      show star (((nk : α))⁻¹ * (∑ l ∈ Finset.range B.2, B.1 j l * star (B.1 i l)) +
            prodMetric bs nk j i) =
          ((nk : α))⁻¹ * (∑ l ∈ Finset.range B.2, B.1 i l * star (B.1 j l)) +
            prodMetric bs nk i j
      rw [star_add, star_mul', star_inv₀, star_natCast, star_sum]
      have hsum : ∑ l ∈ Finset.range B.2, star (B.1 j l * star (B.1 i l)) =
          ∑ l ∈ Finset.range B.2, B.1 i l * star (B.1 j l) := by
        refine Finset.sum_congr rfl fun l _ => ?_
        rw [star_mul', star_star, mul_comm]
      rw [hsum]
      have hih : star (prodMetric bs nk j i) = prodMetric bs nk i j :=
        congrFun (congrFun ih i) j
      rw [hih]

/-- The retained eigenvector indices `mask = np.abs(e) > self.compression_tol`
(`ints.py:99`), in ascending order as `v[:, mask]` keeps them. -/
def keptIdx (e : ℕ → ℚ) (tol : ℚ) (nauxFull : ℕ) : List ℕ :=
  (List.range nauxFull).filter (fun i => decide (tol < |e i|))

/-- The column selection `v[:, mask]` (`ints.py:100`). -/
def rotMask (v : Mat α) (idx : List ℕ) : Mat α :=
  fun r j => if h : j < idx.length then v r (idx.get ⟨j, h⟩) else 0

/-- The per-`q` compression rotation (`ints.py:98-116`): eigenvectors with
`|e| > tol` are kept; when the retained rank equals the full auxiliary
dimension the rotation is set to `None` ("No compression found at q-point").
The retained matrix is paired with its column count (its `shape[-1]`). -/
def rotQ (e : ℕ → ℚ) (tol : ℚ) (nauxFull : ℕ) (v : Mat α) : Option (Mat α × ℕ) :=
  let idx := keptIdx e tol nauxFull
  if idx.length = nauxFull then none else some (rotMask v idx, idx.length)

/-- The reported post-compression auxiliary dimension for one transfer
(`KIntegrals.naux`, `ints.py:478-487`): the rotation's column count, or the
full dimension when the rotation is `None`. -/
def nauxOf (r : Option (Mat α × ℕ)) (nauxFull : ℕ) : ℕ :=
  match r with
  | none => nauxFull
  | some p => p.2

/-- **C6.** The compression basis for a momentum transfer keeps exactly the
eigenvectors of the accumulated Hermitian metric whose eigenvalue magnitude
exceeds the configured tolerance (membership in `keptIdx`, whose entries
index the columns of `v` retained by `rotMask`); when the retained rank
equals the full auxiliary dimension the rotation is set to `None` and the
reported post-compression auxiliary dimension equals the full dimension. -/
theorem get_compression_metric_spec (e : ℕ → ℚ) (tol : ℚ) (nauxFull : ℕ) (v : Mat α) :
    (∀ i, i ∈ keptIdx e tol nauxFull ↔ i < nauxFull ∧ tol < |e i|) ∧
    (∀ m r, rotQ e tol nauxFull v = some (m, r) →
      r = (keptIdx e tol nauxFull).length ∧
      ∀ j, (hj : j < (keptIdx e tol nauxFull).length) →
        ∀ row, m row j = v row ((keptIdx e tol nauxFull).get ⟨j, hj⟩)) ∧
    ((keptIdx e tol nauxFull).length = nauxFull →
      rotQ e tol nauxFull v = none ∧
      nauxOf (rotQ e tol nauxFull v) nauxFull = nauxFull) := by
  refine ⟨?_, ?_, ?_⟩
  · intro i
    rw [keptIdx, List.mem_filter, List.mem_range]
    simp
  · intro m r hmr
    rw [rotQ] at hmr
    by_cases hfull : (keptIdx e tol nauxFull).length = nauxFull
    · rw [if_pos hfull] at hmr
      exact absurd hmr (by simp)
    · rw [if_neg hfull] at hmr
      have hm : rotMask v (keptIdx e tol nauxFull) = m ∧ (keptIdx e tol nauxFull).length = r := by
        have h1 := congrArg (fun p : Mat α × ℕ => p.1) (Option.some.inj hmr)
        have h2 := congrArg (fun p : Mat α × ℕ => p.2) (Option.some.inj hmr)
        exact ⟨h1, h2⟩
      refine ⟨hm.2.symm, fun j hj row => ?_⟩
      rw [← hm.1, rotMask, dif_pos hj]
  · intro hfull
    have hr : rotQ e tol nauxFull v = none := by
      rw [rotQ, if_pos hfull]
    exact ⟨hr, by rw [hr]; rfl⟩

/-- Witness for `get_compression_metric_spec` at a concrete instance (single
auxiliary function, eigenvalue above the tolerance, so the retained rank is
full and the rotation collapses to `None`). -/
theorem get_compression_metric_spec_witness :
    ((∀ i, i ∈ keptIdx (fun _ => (1 : ℚ)) 0 1 ↔ i < 1 ∧ (0 : ℚ) < |(1 : ℚ)|) ∧
      (∀ m r, rotQ (fun _ => (1 : ℚ)) 0 1 (fun _ _ => (1 : ℚ)) = some (m, r) →
        r = (keptIdx (fun _ => (1 : ℚ)) 0 1).length ∧
        ∀ j, (hj : j < (keptIdx (fun _ => (1 : ℚ)) 0 1).length) →
          ∀ row, m row j =
            (fun _ _ => (1 : ℚ)) row ((keptIdx (fun _ => (1 : ℚ)) 0 1).get ⟨j, hj⟩)) ∧
      ((keptIdx (fun _ => (1 : ℚ)) 0 1).length = 1 →
        rotQ (fun _ => (1 : ℚ)) 0 1 (fun _ _ => (1 : ℚ)) = none ∧
        nauxOf (rotQ (fun _ => (1 : ℚ)) 0 1 (fun _ _ => (1 : ℚ))) 1 = 1)) ∧
    ((keptIdx (fun _ => (1 : ℚ)) 0 1).length = 1 ∧
      rotQ (fun _ => (1 : ℚ)) 0 1 ((fun _ _ => (1 : ℚ)) : Mat ℚ) = none) :=
  ⟨get_compression_metric_spec (fun _ => (1 : ℚ)) 0 1 (fun _ _ => (1 : ℚ)),
    by decide,
    ((get_compression_metric_spec (fun _ => (1 : ℚ)) 0 1
      ((fun _ _ => (1 : ℚ)) : Mat ℚ)).2.2 (by decide)).1⟩

end Compression

section Madelung

/-!
## `KIntegrals.madelung` (`momentGW/pbc/ints.py:410-417`)
-/

variable {α : Type}

/-- The two cache attributes involved in the `madelung` property:
`self._madelung` (initialized to `None` in `__init__`, `ints.py:43`) and
`self._madeling` (the misspelled attribute assigned at `ints.py:416`). -/
structure MadelungCache (α : Type) where
  madelungAttr : Option α
  madelingAttr : Option α

/-- The state of a fresh `KIntegrals` instance: `self._madelung = None`
(`ints.py:43`); the misspelled attribute does not exist yet. -/
def madelungInit : MadelungCache α := ⟨none, none⟩

/-- One read of the `madelung` property (`ints.py:410-417`): when
`self._madelung is None`, the computed Madelung constant (`compute`, the
external `tools.pbc.madelung` call) is stored into the misspelled
`self._madeling`; the returned value is `self._madelung`. -/
def madelung_get (st : MadelungCache α) (compute : α) : Option α × MadelungCache α :=
  let st' := if st.madelungAttr.isNone then { st with madelingAttr := some compute } else st
  (st'.madelungAttr, st')

/-- Repeated reads of the property, each with the value the external call
would produce at that time. -/
def madelung_reads : MadelungCache α → List α → List (Option α)
  | _, [] => []
  | st, c :: cs => (madelung_get st c).1 :: madelung_reads (madelung_get st c).2 cs

theorem madelung_get_none (st : MadelungCache α) (c : α) (h : st.madelungAttr = none) :
    (madelung_get st c).1 = none ∧ (madelung_get st c).2.madelungAttr = none ∧
      (madelung_get st c).2.madelingAttr = some c := by
  rw [madelung_get]
  simp [h]

/-- **C10.** Every read of the `madelung` property on a fresh `KIntegrals`
instance returns `None`: the property checks the `_madelung` cache but stores
the computed constant into the differently spelled `_madeling`, so
`_madelung` is never assigned a non-`None` value and the cached `None` is
always returned — for any sequence of reads. -/
theorem madelung_always_none (cs : List α) :
    madelung_reads (madelungInit : MadelungCache α) cs = cs.map (fun _ => none) := by
  suffices h : ∀ st : MadelungCache α, st.madelungAttr = none →
      madelung_reads st cs = cs.map (fun _ => none) by
    exact h madelungInit rfl
  induction cs with
  | nil => intro st _; rfl
  | cons c cs ih =>
      intro st hst
      obtain ⟨h1, h2, _⟩ := madelung_get_none st c hst
      rw [madelung_reads, h1, List.map_cons, ih _ h2]

end Madelung

section Qsgw

/-!
## `momentGW/qsgw.py`: the quasiparticle self-consistency kernel

The molecular driver operates on real `float64` arrays; matrices are embedded
over `ℚ` (exact real arithmetic).  External collaborators (spec §6) are
opaque parameters: the mean-field reference (`make_rdm1`), `np.linalg.eigh`,
the extrapolation buffer (`util.DIIS`, whose source `momentGW/util.py` is not
among the sources — modelled from the spec §3/§9 as an opaque resettable
state with an `update`), the inner solver `subgw.kernel`, and the
pole-representation operations (`build_static_potential` internals use
float `sign`/`exp` regularization; `self_energy_to_moments` calls the
external self-energy type).
-/

/-- `TDA.build_dd_moments_exact` (`momentGW/pbc/tda.py:210-211`): raises
`NotImplementedError` unconditionally on entry. -/
def build_dd_moments_exact : Except MGWError Unit := .error .notImplemented

/-- Environment of the inner Fock loop (`qsgw.py:108-127`), one self-energy
projection `seQp` fixed: `getFock` is `integrals.get_fock(dm, h1e)` with the
kernel's `h1e` applied, `diisUpdate` the extrapolation update of the loop's
own fresh buffer, `eigh` the LAPACK diagonalization, `makeRdm1` the
mean-field density builder, `moCoeffRef` the reference orbitals (line 120
`mo_coeff = mo_coeff_ref @ u`). -/
structure FockLoopEnv (δ : Type) where
  nmo : ℕ
  convTolQp : ℚ
  getFock : Mat ℚ → Mat ℚ
  diisUpdate : δ → Mat ℚ → δ × Mat ℚ
  eigh : Mat ℚ → (ℕ → ℚ) × Mat ℚ
  makeRdm1 : Mat ℚ → Mat ℚ
  moCoeffRef : Mat ℚ
  seQp : Mat ℚ

/-- Mutable state of the inner Fock loop. -/
structure FockSt (δ : Type) where
  diis : δ
  moEnergy : ℕ → ℚ
  moCoeff : Mat ℚ
  dm : Mat ℚ

/-- Absolute value on `ℚ`, written out for kernel-executability. -/
def absQ (q : ℚ) : ℚ := if q < 0 then -q else q

theorem absQ_eq_abs (q : ℚ) : absQ q = |q| := by
  rw [absQ, abs]
  rcases lt_or_le q 0 with h | h
  · rw [if_pos h]
    exact (max_eq_right (by linarith)).symm
  · rw [if_neg (not_lt.2 h)]
    exact (max_eq_left (by linarith)).symm

/-- `error = np.max(np.abs(dm - dm_prev))` (`qsgw.py:124`) over the `nmo×nmo`
entries (`np.max` of a nonnegative array, as a fold of `max` from `0`). -/
def maxAbsDiff (n : ℕ) (A B : Mat ℚ) : ℚ :=
  ((List.range n).flatMap (fun i =>
    (List.range n).map (fun j => absQ (A i j - B i j)))).foldr max 0

/-- One iteration of the inner Fock loop (`qsgw.py:112-124`): build the Fock
matrix from the current density, add the static self-energy potential,
extrapolate (the `mpi_helper.bcast` collectives are the identity in the
single-process model), diagonalize, rebuild orbitals and density, and report
the maximum absolute density change. -/
def fockStep {δ : Type} (E : FockLoopEnv δ) (st : FockSt δ) : FockSt δ × ℚ :=
  let fockEff := E.getFock st.dm + E.seQp
  let du := E.diisUpdate st.diis fockEff
  let eu := E.eigh du.2
  let moCoeff := mmul E.moCoeffRef eu.2 E.nmo
  let dm' := E.makeRdm1 eu.2
  (FockSt.mk du.1 eu.1 moCoeff dm', maxAbsDiff E.nmo dm' st.dm)

/-- The inner Fock loop (`qsgw.py:108-127`): at most `max_cycle_qp` body
iterations; terminate with `conv_qp = True` as soon as the density change
falls strictly below `conv_tol_qp`, else exhaust the budget and return
`conv_qp = False` with the last computed state — no exception either way. -/
def fockLoop {δ : Type} (E : FockLoopEnv δ) : ℕ → FockSt δ → Bool × FockSt δ
  | 0, st => (false, st)
  | n + 1, st =>
      let se := fockStep E st
      if se.2 < E.convTolQp then (true, se.1) else fockLoop E n se.1

/-- The state reached after `k` Fock-loop iterations. -/
def fockIter {δ : Type} (E : FockLoopEnv δ) : ℕ → FockSt δ → FockSt δ :=
  fun k => (fun st => (fockStep E st).1)^[k]

/-- The density-change error produced by the `(k+1)`-th iteration. -/
def fockErr {δ : Type} (E : FockLoopEnv δ) (st0 : FockSt δ) (k : ℕ) : ℚ :=
  (fockStep E (fockIter E k st0)).2

theorem fockIter_succ_shift {δ : Type} (E : FockLoopEnv δ) (st0 : FockSt δ) (k : ℕ) :
    fockIter E k (fockStep E st0).1 = fockIter E (k + 1) st0 := by
  rw [fockIter, fockIter, Function.iterate_succ_apply]

theorem fockErr_shift {δ : Type} (E : FockLoopEnv δ) (st0 : FockSt δ) (k : ℕ) :
    fockErr E (fockStep E st0).1 k = fockErr E st0 (k + 1) := by
  rw [fockErr, fockErr, fockIter_succ_shift]

theorem fockLoop_exhaust {δ : Type} (E : FockLoopEnv δ) :
    ∀ (m : ℕ) (st0 : FockSt δ),
      (∀ j < m, ¬ fockErr E st0 j < E.convTolQp) →
      fockLoop E m st0 = (false, fockIter E m st0) := by
  intro m
  induction m with
  | zero =>
      intro st0 _
      rw [fockLoop, fockIter, Function.iterate_zero]
      rfl
  | succ m ih =>
      intro st0 hne
      have h0 : ¬ (fockStep E st0).2 < E.convTolQp := by
        have := hne 0 (by omega)
        rw [fockErr, fockIter, Function.iterate_zero_apply] at this
        exact this
      rw [fockLoop]
      rw [if_neg h0]
      have hsh : ∀ j < m, ¬ fockErr E (fockStep E st0).1 j < E.convTolQp := by
        intro j hj
        rw [fockErr_shift]
        exact hne (j + 1) (by omega)
      rw [ih (fockStep E st0).1 hsh, fockIter_succ_shift]

theorem fockLoop_converge {δ : Type} (E : FockLoopEnv δ) :
    ∀ (k m : ℕ) (st0 : FockSt δ), k < m →
      (∀ j < k, ¬ fockErr E st0 j < E.convTolQp) →
      fockErr E st0 k < E.convTolQp →
      fockLoop E m st0 = (true, fockIter E (k + 1) st0) := by
  intro k
  induction k with
  | zero =>
      intro m st0 hkm _ hconv
      match m with
      | mm + 1 =>
          rw [fockErr, fockIter, Function.iterate_zero_apply] at hconv
          rw [fockLoop, if_pos hconv]
          rfl
  | succ k ih =>
      intro m st0 hkm hne hconv
      match m with
      | mm + 1 =>
          have h0 : ¬ (fockStep E st0).2 < E.convTolQp := by
            have := hne 0 (by omega)
            rw [fockErr, fockIter, Function.iterate_zero_apply] at this
            exact this
          rw [fockLoop, if_neg h0]
          have hsh : ∀ j < k, ¬ fockErr E (fockStep E st0).1 j < E.convTolQp := by
            intro j hj
            rw [fockErr_shift]
            exact hne (j + 1) (by omega)
          have hc : fockErr E (fockStep E st0).1 k < E.convTolQp := by
            rw [fockErr_shift]
            exact hconv
          rw [ih mm (fockStep E st0).1 (by omega) hsh hc, fockIter_succ_shift]

/-- Matrix transpose (`.T` / `swapaxes(-1, -2)`). -/
def transposeM (M : Mat ℚ) : Mat ℚ := fun i j => M j i

/-- `qsGW.project_basis` (`qsgw.py:236-259`): `proj = mo1.T @ ovlp @ mo2`,
then `einsum("...pq,pi,qj->...ij", matrix, proj, proj)`. -/
def project_basis (matrix ovlp mo1 mo2 : Mat ℚ) (n : ℕ) : Mat ℚ :=
  fun i j =>
    ∑ p ∈ Finset.range n, ∑ q ∈ Finset.range n,
      matrix p q * mmul (mmul (transposeM mo1) ovlp n) mo2 n p i *
        mmul (mmul (transposeM mo1) ovlp n) mo2 n q j

/-- Environment of the molecular `kernel` (`qsgw.py:20-152`) with its
external collaborators: the mean-field reference (`ovlp`, `hcore`,
`makeRdm1`, initial orbitals), the integral container (`ao2mo`, `getFock`),
the extrapolation buffers (fresh `diisInit` for the static-potential loop,
fresh `diisQpInit` per Fock loop, shared `diisUpdate`), LAPACK `eigh`, the
inner solver `subKernel`, and the pole-representation operations
(`buildStaticPotential`, `seToMoments`, `checkConvergence`). -/
structure QsKernelEnv (δ γ σ ι : Type) where
  polarizability : String
  nmo : ℕ
  maxCycle : ℕ
  maxCycleQp : ℕ
  convTolQp : ℚ
  moEnergy0 : ℕ → ℚ
  moCoeff0 : Mat ℚ
  ovlp : Mat ℚ
  hcore : Mat ℚ
  ao2mo : Unit → ι
  integralsArg : Option ι
  makeRdm1 : Mat ℚ → Mat ℚ
  getFock : ι → Mat ℚ → Mat ℚ → Mat ℚ
  diisInit : δ
  diisQpInit : δ
  diisUpdate : δ → Mat ℚ → δ × Mat ℚ
  eigh : Mat ℚ → (ℕ → ℚ) × Mat ℚ
  subKernel : (ℕ → ℚ) → Mat ℚ → Option ι → Bool × γ × σ
  buildStaticPotential : (ℕ → ℚ) → σ → Mat ℚ
  seToMoments : σ → Mat ℚ × Mat ℚ
  checkConvergence : (ℕ → ℚ) → (ℕ → ℚ) → Mat ℚ → Mat ℚ → Mat ℚ → Mat ℚ → Bool

/-- Per-cycle state of the outer loop: the current Green's function and
self-energy, orbitals, density, the static-potential DIIS state, and the
previous cycle's projected hole/particle moments. -/
structure CycleSt (δ γ σ : Type) where
  gf : γ
  se : σ
  moEnergy : ℕ → ℚ
  moCoeff : Mat ℚ
  dm : Mat ℚ
  diis : δ
  th : Mat ℚ
  tp : Mat ℚ

/-- The Fock-loop environment built by one outer cycle (`qsgw.py:112-116`):
`fock = integrals.get_fock(dm, h1e)`, `fock_eff = fock + se_qp` with the
cycle's extrapolated static potential. -/
def fockEnvOf {δ γ σ ι : Type} (E : QsKernelEnv δ γ σ ι) (ints : ι)
    (h1e seQp : Mat ℚ) : FockLoopEnv δ :=
  FockLoopEnv.mk E.nmo E.convTolQp (fun dm => E.getFock ints dm h1e)
    E.diisUpdate E.eigh E.makeRdm1 E.moCoeff0 seQp

/-- The extrapolated static potential of one outer cycle (`qsgw.py:102-104`):
`se_qp = build_static_potential(mo_energy, se)` projected into the reference
basis and pushed through the outer DIIS buffer. -/
def cycleSeQp {δ γ σ ι : Type} (E : QsKernelEnv δ γ σ ι) (st : CycleSt δ γ σ) :
    δ × Mat ℚ :=
  E.diisUpdate st.diis
    (project_basis (E.buildStaticPotential st.moEnergy st.se) E.ovlp st.moCoeff
      E.moCoeff0 E.nmo)

/-- One iteration of the outer loop (`qsgw.py:98-150`): build and extrapolate
the static potential, run the inner Fock loop (recording but not acting on
its convergence flag, which is only logged at lines 129-132), update the
self-energy with the loop's final orbitals, project the new moments, and
test convergence.  Returns `(conv, conv_qp, next state)`. -/
def qsCycle {δ γ σ ι : Type} (E : QsKernelEnv δ γ σ ι) (ints : ι) (h1e : Mat ℚ)
    (st : CycleSt δ γ σ) : Bool × Bool × CycleSt δ γ σ :=
  let d := cycleSeQp E st
  let fl := fockLoop (fockEnvOf E ints h1e d.2) E.maxCycleQp
    (FockSt.mk E.diisQpInit st.moEnergy st.moCoeff st.dm)
  let sub := E.subKernel fl.2.moEnergy fl.2.moCoeff none
  let ms := E.seToMoments sub.2.2
  let th := project_basis ms.1 E.ovlp fl.2.moCoeff E.moCoeff0 E.nmo
  let tp := project_basis ms.2 E.ovlp fl.2.moCoeff E.moCoeff0 E.nmo
  (E.checkConvergence fl.2.moEnergy st.moEnergy th st.th tp st.tp, fl.1,
    CycleSt.mk sub.2.1 sub.2.2 fl.2.moEnergy fl.2.moCoeff fl.2.dm d.1 th tp)

/-- The outer loop `for cycle in range(1, max_cycle + 1)` (`qsgw.py:98-150`):
break with `conv = True` when the convergence test passes, else exhaust the
budget and return `conv = False` with the last state. -/
def qsCycles {δ γ σ ι : Type} (E : QsKernelEnv δ γ σ ι) (ints : ι) (h1e : Mat ℚ) :
    ℕ → CycleSt δ γ σ → Bool × CycleSt δ γ σ
  | 0, st => (false, st)
  | c + 1, st =>
      let r := qsCycle E ints h1e st
      if r.1 then (true, r.2.2) else qsCycles E ints h1e c r.2.2

/-- The molecular qsGW `kernel` (`qsgw.py:20-152`): the `polarizability ==
"drpa-exact"` guard raises `NotImplementedError` before anything else runs
(lines 61-62); otherwise integrals are taken or built (lines 64-65), the
density matrix and core Hamiltonian are projected (lines 72-82), the initial
self-energy is solved (lines 87-95), and the outer loop runs. -/
def qsKernel {δ γ σ ι : Type} (E : QsKernelEnv δ γ σ ι) :
    Except MGWError (Bool × γ × σ × (ℕ → ℚ)) :=
  if E.polarizability = "drpa-exact" then .error .notImplemented
  else
    let ints := match E.integralsArg with
      | some i => i
      | none => E.ao2mo ()
    let sc := mmul E.ovlp E.moCoeff0 E.nmo
    let dm0 := mmul (mmul (transposeM sc) (E.makeRdm1 E.moCoeff0) E.nmo) sc E.nmo
    let h1e := mmul (mmul (transposeM E.moCoeff0) E.hcore E.nmo) E.moCoeff0 E.nmo
    let sub0 := E.subKernel E.moEnergy0 E.moCoeff0 (some ints)
    let ms0 := E.seToMoments sub0.2.2
    let r := qsCycles E ints h1e E.maxCycle
      (CycleSt.mk sub0.2.1 sub0.2.2 E.moEnergy0 E.moCoeff0 dm0 E.diisInit ms0.1 ms0.2)
    .ok (r.1, r.2.gf, r.2.se, r.2.moEnergy)

/-- **C8.** Requesting the exact-diagonalization response-moment variant
fails immediately with no partial computation performed: for every
environment — in particular for every integrals builder `ao2mo` and inner
solver, none of which is invoked — the kernel returns the
`NotImplementedError` (`qsgw.py:61-62`) as soon as the polarizability is the
exact variant, and `build_dd_moments_exact` (`pbc/tda.py:210-211`) is the
error unconditionally on entry. -/
theorem qsgw_exact_polarizability_fails {δ γ σ ι : Type} (E : QsKernelEnv δ γ σ ι)
    (h : E.polarizability = "drpa-exact") :
    qsKernel E = .error .notImplemented ∧
    build_dd_moments_exact = .error .notImplemented :=
  ⟨by rw [qsKernel, if_pos h], rfl⟩

/-- Witness for `qsgw_exact_polarizability_fails` at a concrete
environment. -/
theorem qsgw_exact_polarizability_fails_witness :
    (QsKernelEnv.mk (δ := Unit) (γ := Unit) (σ := Unit) (ι := Unit)
        "drpa-exact" 1 1 1 1 (fun _ => 0) (fun _ _ => 0) (fun _ _ => 0)
        (fun _ _ => 0) (fun _ => ()) none (fun _ => fun _ _ => 0)
        (fun _ _ _ => fun _ _ => 0) () () (fun d m => (d, m))
        (fun m => (fun _ => 0, m)) (fun _ _ _ => (true, (), ()))
        (fun _ _ => fun _ _ => 0) (fun _ => (fun _ _ => 0, fun _ _ => 0))
        (fun _ _ _ _ _ _ => true)).polarizability = "drpa-exact" ∧
    (qsKernel (QsKernelEnv.mk (δ := Unit) (γ := Unit) (σ := Unit) (ι := Unit)
        "drpa-exact" 1 1 1 1 (fun _ => 0) (fun _ _ => 0) (fun _ _ => 0)
        (fun _ _ => 0) (fun _ => ()) none (fun _ => fun _ _ => 0)
        (fun _ _ _ => fun _ _ => 0) () () (fun d m => (d, m))
        (fun m => (fun _ => 0, m)) (fun _ _ _ => (true, (), ()))
        (fun _ _ => fun _ _ => 0) (fun _ => (fun _ _ => 0, fun _ _ => 0))
        (fun _ _ _ _ _ _ => true)) = .error .notImplemented ∧
      build_dd_moments_exact = .error .notImplemented) :=
  ⟨rfl, qsgw_exact_polarizability_fails _ rfl⟩

/-- **C9.** The inner Fock loop terminates when the maximum absolute density
change falls strictly below `conv_tol_qp` (returning `conv_qp = True` with
the state of the first such iteration) or when the iteration budget is
exhausted (returning `conv_qp = False` with the last computed state, no
exception); and the enclosing cycle records that flag and proceeds with the
loop's final orbitals and density either way. -/
theorem fock_loop_spec {δ γ σ ι : Type} (F : FockLoopEnv δ) (m : ℕ) (st0 : FockSt δ)
    (E : QsKernelEnv δ γ σ ι) (ints : ι) (h1e : Mat ℚ) (st : CycleSt δ γ σ) :
    ((∀ j < m, ¬ fockErr F st0 j < F.convTolQp) →
      fockLoop F m st0 = (false, fockIter F m st0)) ∧
    (∀ k < m, (∀ j < k, ¬ fockErr F st0 j < F.convTolQp) →
      fockErr F st0 k < F.convTolQp →
      fockLoop F m st0 = (true, fockIter F (k + 1) st0)) ∧
    ((qsCycle E ints h1e st).2.1 =
      (fockLoop (fockEnvOf E ints h1e (cycleSeQp E st).2) E.maxCycleQp
        (FockSt.mk E.diisQpInit st.moEnergy st.moCoeff st.dm)).1 ∧
     (qsCycle E ints h1e st).2.2.moEnergy =
      (fockLoop (fockEnvOf E ints h1e (cycleSeQp E st).2) E.maxCycleQp
        (FockSt.mk E.diisQpInit st.moEnergy st.moCoeff st.dm)).2.moEnergy ∧
     (qsCycle E ints h1e st).2.2.moCoeff =
      (fockLoop (fockEnvOf E ints h1e (cycleSeQp E st).2) E.maxCycleQp
        (FockSt.mk E.diisQpInit st.moEnergy st.moCoeff st.dm)).2.moCoeff ∧
     (qsCycle E ints h1e st).2.2.dm =
      (fockLoop (fockEnvOf E ints h1e (cycleSeQp E st).2) E.maxCycleQp
        (FockSt.mk E.diisQpInit st.moEnergy st.moCoeff st.dm)).2.dm) :=
  ⟨fockLoop_exhaust F m st0, fun k hk => fockLoop_converge F k m st0 hk,
    rfl, rfl, rfl, rfl⟩

/-- A concrete non-converging Fock-loop environment for the `C9` witness:
the density jumps from `0` to `1` at the first step and the tolerance is
`1/2`, so the loop exhausts its budget of one iteration. -/
def fockWitnessEnv : FockLoopEnv Unit :=
  FockLoopEnv.mk 1 (1/2 : ℚ) (fun _ => fun _ _ => 0) (fun d m => (d, m))
    (fun m => (fun _ => 0, m)) (fun _ => fun _ _ => 1) (fun _ _ => 0)
    (fun _ _ => 0)

theorem fockWitness_err :
    ∀ j < 1, ¬ fockErr fockWitnessEnv (FockSt.mk () (fun _ => 0) (fun _ _ => 0)
        (fun _ _ => 0)) j < fockWitnessEnv.convTolQp := by
  intro j hj
  have hj0 : j = 0 := by omega
  subst hj0
  have hval : fockErr fockWitnessEnv (FockSt.mk () (fun _ => 0) (fun _ _ => 0)
      (fun _ _ => 0)) 0 = maxAbsDiff 1 (fun _ _ => 1) (fun _ _ => 0) := rfl
  rw [hval]
  have hmax : maxAbsDiff 1 ((fun _ _ => 1) : Mat ℚ) (fun _ _ => 0) = 1 := by
    rw [maxAbsDiff]
    have hr : List.range 1 = [0] := rfl
    rw [hr]
    norm_num [absQ]
  rw [hmax]
  show ¬ (1 : ℚ) < 1/2
  norm_num

/-- Witness for `fock_loop_spec` at a concrete instance (the
budget-exhaustion branch). -/
theorem fock_loop_spec_witness :
    (∀ j < 1, ¬ fockErr fockWitnessEnv (FockSt.mk () (fun _ => 0) (fun _ _ => 0)
        (fun _ _ => 0)) j < fockWitnessEnv.convTolQp) ∧
    fockLoop fockWitnessEnv 1 (FockSt.mk () (fun _ => 0) (fun _ _ => 0)
        (fun _ _ => 0)) =
      (false, fockIter fockWitnessEnv 1 (FockSt.mk () (fun _ => 0) (fun _ _ => 0)
        (fun _ _ => 0))) :=
  ⟨fockWitness_err,
    (fock_loop_spec fockWitnessEnv 1
      (FockSt.mk () (fun _ => 0) (fun _ _ => 0) (fun _ _ => 0))
      (QsKernelEnv.mk (δ := Unit) (γ := Unit) (σ := Unit) (ι := Unit)
        "drpa" 1 1 1 1 (fun _ => 0) (fun _ _ => 0) (fun _ _ => 0)
        (fun _ _ => 0) (fun _ => ()) none (fun _ => fun _ _ => 0)
        (fun _ _ _ => fun _ _ => 0) () () (fun d m => (d, m))
        (fun m => (fun _ => 0, m)) (fun _ _ _ => (true, (), ()))
        (fun _ _ => fun _ _ => 0) (fun _ => (fun _ _ => 0, fun _ _ => 0))
        (fun _ _ _ _ _ _ => true)) () (fun _ _ => 0)
      (CycleSt.mk () () (fun _ => 0) (fun _ _ => 0) (fun _ _ => 0) ()
        (fun _ _ => 0) (fun _ _ => 0))).1 fockWitness_err⟩

end Qsgw

end MomentGW
